import Mathlib

/-!
The distance-field builder and the reconstruction shader of glyphy.

A shallow embedding of `setup_texture` and of the arithmetic of the fragment shader of
`glyphy.cc`, followed by the properties of the distance field they produce.

* `double` values are modelled by the rationals they denote; every arithmetic operation
  rounds its exact result to the nearest binary64 value, ties to even (`fl`), and `sqrt`
  returns the binary64 value nearest to the real square root (`fsqrt`).  All values that
  occur lie between `2^-52` and `2^34`, far from the overflow and underflow thresholds.
* `int` pixel coordinates are modelled by integers: cairo image surfaces have at most 32767
  pixels a side, so no coordinate expression of the texel loop leaves the `int` range.  The
  size computation, which is stated for the whole `int` range, wraps explicitly.
* `float` values of the shader are modelled by exact rationals.
-/

namespace Glyphy

/-! ## Constants of `setup_texture` -/

/-- `#define SAMPLING 8` -/
def SAMPLING : ℤ := 8

/-- `#define FILTERWIDTH 8` -/
def FILTERWIDTH : ℤ := 8

/-! ## binary64 arithmetic -/

/-- Round a rational to the nearest integer, ties to the even neighbour. -/
def roundHalfEven (t : ℚ) : ℤ :=
  let f : ℤ := ⌊t⌋
  if t - f < 1 / 2 then f
  else if 1 / 2 < t - f then f + 1
  else if f % 2 = 0 then f else f + 1

/-- Binary exponent `e` of a nonzero value: `2^e ≤ |q| < 2^(e+1)`. -/
def binade (q : ℚ) : ℤ := Int.log 2 |q|

/-- Spacing of the binary64 values (53-bit significand) around `q`. -/
def ulp (q : ℚ) : ℚ := (2 : ℚ) ^ (binade q - 52)

/-- Rounding of an exact result to binary64, round-to-nearest-even. -/
def fl (q : ℚ) : ℚ := if q = 0 then 0 else (roundHalfEven (q / ulp q) : ℚ) * ulp q

/-- Product of two `double`s. -/
def fmul (a b : ℚ) : ℚ := fl (a * b)

/-- Quotient of two `double`s. -/
def fdiv (a b : ℚ) : ℚ := fl (a / b)

/-- Difference of two `double`s. -/
def fsub (a b : ℚ) : ℚ := fl (a - b)

/-- Sum of two `double`s. -/
def fadd (a b : ℚ) : ℚ := fl (a + b)

/-- The call `sqrt (n)` of `math.h` on an `int` below `2^53` (converted exactly): the
binary64 value nearest to the real square root.  With `e` the binary exponent of the root,
the significand is the integer nearest to `sqrt (n * 4^(52-e))`; a tie cannot occur. -/
def fsqrt (n : ℕ) : ℚ :=
  if n = 0 then 0 else
  let e : ℕ := Nat.log2 n / 2
  let N : ℕ := n * 4 ^ (52 - e)
  let f : ℕ := Nat.sqrt N
  let m : ℕ := if N - f * f ≤ f then f else f + 1
  (m : ℚ) / 2 ^ (52 - e)

/-- The macro `MIN(a, b)`, that is `((a) < (b)) ? (a) : (b)`. -/
def MIN (a b : ℚ) : ℚ := if a < b then a else b

/-- Integral part of a `double`, rounding toward zero. -/
def truncToZero (q : ℚ) : ℤ := if 0 ≤ q then ⌊q⌋ else ⌈q⌉

/-- Conversion of a `double` to `unsigned char` on assignment. -/
def toUChar (q : ℚ) : ℕ := (truncToZero q % 256).toNat

/-! ## The coverage bitmap and the texel loop -/

/-- The A8 source surface: `swidth`, `sheight` and the bytes `data[k]`. -/
structure Bitmap where
  /-- number of pixels in a row -/
  swidth : ℤ
  /-- number of rows -/
  sheight : ℤ
  /-- coverage byte stored at offset `k` -/
  data : ℕ → Fin 256

/-- The macro `S(x,y)`: coverage at `(x, y)`, and 0 outside the bitmap. -/
def S (bm : Bitmap) (x y : ℤ) : ℕ :=
  if x < 0 ∨ y < 0 ∨ x ≥ bm.swidth ∨ y ≥ bm.sheight then 0
  else (bm.data (y * bm.swidth + x).toNat).val

/-- Values taken by the counter of `for (i = lo; i <= hi; i++)`, in order. -/
def loopRange (lo hi : ℤ) : List ℤ :=
  (List.range (hi + 1 - lo).toNat).map fun (k : ℕ) => lo + (k : ℤ)

/-- The two nested search loops, starting from `c = 1e10`; `opp` is the test applied to
`S(sx+i,sy+j)` (`< 128` in the inside branch, `>= 128` in the outside branch). -/
def scan (opp : ℕ → Bool) (bm : Bitmap) (sx sy : ℤ) : ℚ :=
  (loopRange (-FILTERWIDTH * SAMPLING) (FILTERWIDTH * SAMPLING)).foldl (fun c i =>
    (loopRange (-FILTERWIDTH * SAMPLING) (FILTERWIDTH * SAMPLING)).foldl (fun c j =>
      if opp (S bm (sx + i) (sy + j)) then MIN c (fsqrt (i * i + j * j).toNat) else c) c)
    10000000000

/-- Right-hand side of the inside assignment,
`128 - MIN (c, FILTERWIDTH*SAMPLING) * 128. / (FILTERWIDTH*SAMPLING)`. -/
def encInD (c : ℚ) : ℚ :=
  fsub 128 (fdiv (fmul (MIN c ((FILTERWIDTH * SAMPLING : ℤ) : ℚ)) 128)
    ((FILTERWIDTH * SAMPLING : ℤ) : ℚ))

/-- Right-hand side of the outside assignment,
`127 + MIN (c, FILTERWIDTH*SAMPLING) * 128. / (FILTERWIDTH*SAMPLING)`. -/
def encOutD (c : ℚ) : ℚ :=
  fadd 127 (fdiv (fmul (MIN c ((FILTERWIDTH * SAMPLING : ℤ) : ℚ)) 128)
    ((FILTERWIDTH * SAMPLING : ℤ) : ℚ))

/-- The `double` assigned to `D(x,y)` by the body of the texel loop. -/
def texelD (bm : Bitmap) (x y : ℤ) : ℚ :=
  let sx := (x - FILTERWIDTH) * SAMPLING
  let sy := (y - FILTERWIDTH) * SAMPLING
  if S bm sx sy ≥ 128 then
    encInD (scan (fun v => decide (v < 128)) bm sx sy)
  else
    encOutD (scan (fun v => decide (v ≥ 128)) bm sx sy)

/-- The byte stored in `D(x,y)`. -/
def texel (bm : Bitmap) (x y : ℤ) : ℕ := toUChar (texelD bm x y)

/-! ## The size computation -/

/-- Largest `int`. -/
def INT_MAX : ℤ := 2147483647

/-- Two-complement wrap-around of a 32-bit `int` result. -/
def wrapInt (z : ℤ) : ℤ := (z + 2147483648) % 4294967296 - 2147483648

/-- The expression `w & ~3`. -/
def andNot3 (w : ℤ) : ℤ := Int.land w (Int.lnot 3)

/-- The expression `(n + SAMPLING-1) / SAMPLING + 2 * FILTERWIDTH` on `int`s; it parses
as `((n + SAMPLING) - 1) / SAMPLING + ...` and the division of C truncates toward zero. -/
def paddedSize (n : ℤ) : ℤ :=
  wrapInt (Int.tdiv (wrapInt (wrapInt (n + SAMPLING) - 1)) SAMPLING + 2 * FILTERWIDTH)

/-- The statement `height = (height + SAMPLING-1) / SAMPLING + 2 * FILTERWIDTH`. -/
def texHeight (sheight : ℤ) : ℤ := paddedSize sheight

/-- The statements `width = (width + SAMPLING-1) / SAMPLING + 2 * FILTERWIDTH` and
`width = (width+3)&~3`. -/
def texWidth (swidth : ℤ) : ℤ := andNot3 (wrapInt (paddedSize swidth + 3))

/-! ## The fragment shader -/

/-- GLSL `clamp (x, lo, hi)`, that is `min (max (x, lo), hi)`. -/
def clamp (x lo hi : ℚ) : ℚ := min (max x lo) hi

/-- GLSL `smoothstep (edge0, edge1, x)`: with `t = clamp ((x - edge0) / (edge1 - edge0), 0, 1)`
the result is `t * t * (3 - 2 * t)`. -/
def smoothstep (edge0 edge1 x : ℚ) : ℚ :=
  let t := clamp ((x - edge0) / (edge1 - edge0)) 0 1
  t * t * (3 - 2 * t)

/-- The shader line `float mm = m * 128. / (FILTERWIDTH*SAMPLING);`. -/
def shaderMM (m : ℚ) : ℚ := m * 128 / ((FILTERWIDTH * SAMPLING : ℤ) : ℚ)

/-- The shader line `float alpha = smoothstep (-mm, mm, texture2D(tex, v_texCoord).r - .5);`
for a fragment with derivative magnitude `m` and sampled value `r`. -/
def shaderAlpha (m r : ℚ) : ℚ := smoothstep (-shaderMM m) (shaderMM m) (r - 1 / 2)

/-- Width of the interval between the two edges handed to `smoothstep`. -/
def bandWidth (m : ℚ) : ℚ := shaderMM m - (-shaderMM m)

/-! ## Notions used to state the properties -/

/-- Squared length `i*i + j*j` of an offset. -/
def sqDist (i j : ℤ) : ℕ := (i * i + j * j).toNat

/-- The offset `(i, j)` is visited by the two search loops. -/
def InWindow (i j : ℤ) : Prop :=
  -FILTERWIDTH * SAMPLING ≤ i ∧ i ≤ FILTERWIDTH * SAMPLING ∧
  -FILTERWIDTH * SAMPLING ≤ j ∧ j ≤ FILTERWIDTH * SAMPLING

/-- The texel is classified inside: its mapped source pixel reaches the threshold. -/
def Inside (bm : Bitmap) (sx sy : ℤ) : Prop := 128 ≤ S bm sx sy

/-- The source pixel at offset `(i, j)` lies on the other side of the threshold than the
pixel at `(sx, sy)`. -/
def Opposite (bm : Bitmap) (sx sy i j : ℤ) : Prop :=
  128 ≤ S bm sx sy ↔ S bm (sx + i) (sy + j) < 128

/-- The real number `d` is the minimum of `sqrt (i^2 + j^2)` over the offsets of the search
window whose pixel is of the opposite class, and the sentinel `1e10` when there is none. -/
def IsMinDist (bm : Bitmap) (sx sy : ℤ) (d : ℝ) : Prop :=
  IsLeast {r : ℝ | ∃ i j : ℤ, InWindow i j ∧ Opposite bm sx sy i j ∧
    r = Real.sqrt ((i : ℝ) ^ 2 + (j : ℝ) ^ 2)} d ∨
  ((∀ i j, InWindow i j → ¬ Opposite bm sx sy i j) ∧ d = 10000000000)

/-- The integer `t` is the real number `v` truncated toward zero. -/
def IsTruncation (t : ℤ) (v : ℝ) : Prop :=
  (0 ≤ v ∧ (t : ℝ) ≤ v ∧ v < t + 1) ∨ (v < 0 ∧ (t : ℝ) - 1 < v ∧ v ≤ t)

/-- The relation `Nearest bm sx sy o`: `o` is the least squared distance from `(sx, sy)` to a pixel of the
opposite class inside the search window, or `none` when the window holds no such pixel. -/
def Nearest (bm : Bitmap) (sx sy : ℤ) : Option ℕ → Prop
  | none => ∀ i j, InWindow i j → ¬ Opposite bm sx sy i j
  | some n => (∃ i j, InWindow i j ∧ Opposite bm sx sy i j ∧ sqDist i j = n) ∧
      ∀ i j, InWindow i j → Opposite bm sx sy i j → n ≤ sqDist i j

/-- Value left in `c` by the search, as a function of the least squared distance. -/
def distQ : Option ℕ → ℚ
  | none => 10000000000
  | some n => fsqrt n

/-- Square of the clamped distance `min (d, 64)`. -/
def clampedSq : Option ℕ → ℕ
  | none => 4096
  | some n => min n 4096

/-- Integer form of the inside encoding: `128 - ceil (2 * min (d, 64))`. -/
def insideCode (o : Option ℕ) : ℕ := 127 - Nat.sqrt (4 * clampedSq o - 1)

/-- Integer form of the outside encoding: `127 + floor (2 * min (d, 64))`. -/
def outsideCode (o : Option ℕ) : ℕ := 127 + Nat.sqrt (4 * clampedSq o)

/-- Twice half an ulp of the square roots of the search window: `2^-46`. -/
def U : ℚ := 1 / 2 ^ 46

/-- The search loops restricted to the offsets with `i*i + j*j < R*R`, `R = 64`: the disc
of radius `R` in place of the square window. -/
def scanDisc (opp : ℕ → Bool) (bm : Bitmap) (sx sy : ℤ) : ℚ :=
  (loopRange (-FILTERWIDTH * SAMPLING) (FILTERWIDTH * SAMPLING)).foldl (fun c i =>
    (loopRange (-FILTERWIDTH * SAMPLING) (FILTERWIDTH * SAMPLING)).foldl (fun c j =>
      if decide (i * i + j * j < (FILTERWIDTH * SAMPLING) * (FILTERWIDTH * SAMPLING))
          && opp (S bm (sx + i) (sy + j))
      then MIN c (fsqrt (i * i + j * j).toNat) else c) c)
    10000000000

/-- The byte stored for a texel when only the disc of radius `R` is searched. -/
def texelDisc (bm : Bitmap) (x y : ℤ) : ℕ :=
  let sx := (x - FILTERWIDTH) * SAMPLING
  let sy := (y - FILTERWIDTH) * SAMPLING
  if S bm sx sy ≥ 128 then
    toUChar (encInD (scanDisc (fun v => decide (v < 128)) bm sx sy))
  else
    toUChar (encOutD (scanDisc (fun v => decide (v ≥ 128)) bm sx sy))

/-! ## Sample bitmaps -/

/-- A blank surface of 4 by 4 pixels. -/
def blankBitmap : Bitmap := ⟨4, 4, fun _ => 0⟩

/-- One row of four pixels, only the first one covered. -/
def dotBitmap : Bitmap := ⟨4, 1, fun k => if k = 0 then 255 else 0⟩

/-- One row of four pixels, only the second one covered. -/
def stepBitmap : Bitmap := ⟨4, 1, fun k => if k = 1 then 255 else 0⟩

/-- A fully covered surface of 132 by 129 pixels with one hole, at `(127, 72)`. -/
def holeBitmap : Bitmap := ⟨132, 129, fun k => if k = 9631 then 0 else 255⟩

/-- A fully covered surface of 132 by 129 pixels with one hole, at `(128, 128)`. -/
def cornerBitmap : Bitmap := ⟨132, 129, fun k => if k = 17024 then 0 else 255⟩

/-- A fully covered surface of 132 by 129 pixels. -/
def solidBitmap : Bitmap := ⟨132, 129, fun _ => 255⟩

/-! ## Lemmas on the binary64 arithmetic -/

theorem roundHalfEven_intCast (z : ℤ) : roundHalfEven (z : ℚ) = z := by
  simp [roundHalfEven]

theorem roundHalfEven_err (t : ℚ) : |(roundHalfEven t : ℚ) - t| ≤ 1 / 2 := by
  have h1 := Int.floor_le t
  have h2 := Int.lt_floor_add_one t
  unfold roundHalfEven
  simp only
  split_ifs with ha hb hc
  · rw [abs_le]; constructor <;> linarith
  · rw [abs_le]; push_cast; constructor <;> linarith
  · rw [abs_le]; constructor <;> linarith
  · rw [abs_le]; push_cast; constructor <;> linarith

theorem binade_le (q : ℚ) (hq : q ≠ 0) : (2 : ℚ) ^ binade q ≤ |q| := by
  have := Int.zpow_log_le_self (b := 2) (r := |q|) (by norm_num) (abs_pos.mpr hq)
  simpa [binade] using this

theorem lt_binade (q : ℚ) : |q| < (2 : ℚ) ^ (binade q + 1) := by
  have := Int.lt_zpow_succ_log_self (b := 2) (by norm_num) (|q|)
  simpa [binade] using this

theorem binade_lt_of_lt (q : ℚ) (hq : q ≠ 0) (b : ℤ) (h : |q| < (2 : ℚ) ^ b) : binade q < b := by
  have := (Int.lt_zpow_iff_log_lt (b := 2) (by norm_num) (x := b) (abs_pos.mpr hq)).mp
    (by simpa using h)
  simpa [binade] using this

theorem ulp_pos (q : ℚ) : 0 < ulp q := by
  unfold ulp; positivity

/-- values with at most 53 significant bits are fixed by rounding -/
theorem fl_exact_lt (z k : ℤ) (h : |(z : ℚ) * 2 ^ k| < 2 ^ (k + 53)) :
    fl ((z : ℚ) * 2 ^ k) = (z : ℚ) * 2 ^ k := by
  unfold fl
  split_ifs with h0
  · exact h0.symm
  · have hb : binade ((z : ℚ) * 2 ^ k) < k + 53 := binade_lt_of_lt _ h0 _ h
    obtain ⟨d, hd⟩ : ∃ d : ℕ, k - (binade ((z : ℚ) * 2 ^ k) - 52) = d :=
      ⟨(k - (binade ((z : ℚ) * 2 ^ k) - 52)).toNat, by rw [Int.toNat_of_nonneg]; omega⟩
    have hq : (z : ℚ) * 2 ^ k / ulp ((z : ℚ) * 2 ^ k) = ((z * 2 ^ d : ℤ) : ℚ) := by
      unfold ulp
      rw [mul_div_assoc, ← zpow_sub₀ (by norm_num : (2 : ℚ) ≠ 0), hd]
      push_cast
      rw [zpow_natCast]
    rw [hq, roundHalfEven_intCast, ← hq]
    field_simp [(ulp_pos _).ne']

theorem fl_exact (z k : ℤ) (h : |(z : ℚ) * 2 ^ k| ≤ 2 ^ (k + 53)) :
    fl ((z : ℚ) * 2 ^ k) = (z : ℚ) * 2 ^ k := by
  rcases lt_or_eq_of_le h with h | h
  · exact fl_exact_lt z k h
  · rcases abs_choice ((z : ℚ) * 2 ^ k) with h' | h'
    · rw [h'] at h
      have := fl_exact_lt 1 (k + 53) (by
        rw [abs_of_pos (by positivity)]
        simp only [Int.cast_one, one_mul]
        exact zpow_lt_zpow_right₀ (by norm_num) (by omega))
      rw [h]; simpa using this
    · rw [h'] at h
      have := fl_exact_lt (-1) (k + 53) (by
        rw [abs_of_neg (by simp; positivity)]
        simp only [Int.cast_neg, Int.cast_one, neg_mul, one_mul, neg_neg]
        exact zpow_lt_zpow_right₀ (by norm_num) (by omega))
      have e : (z : ℚ) * 2 ^ k = ((-1 : ℤ) : ℚ) * 2 ^ (k + 53) := by
        push_cast; linarith
      rw [e]; exact this

theorem fl_err (q : ℚ) (b : ℤ) (h : |q| < 2 ^ (b + 1)) : |fl q - q| ≤ 2 ^ (b - 53) := by
  unfold fl
  split_ifs with h0
  · simp [h0]; positivity
  · have hb : binade q < b + 1 := binade_lt_of_lt _ h0 _ h
    have hu : ulp q ≤ 2 ^ (b - 52) := by
      unfold ulp
      exact zpow_le_zpow_right₀ (by norm_num) (by omega)
    have he := roundHalfEven_err (q / ulp q)
    have hp := ulp_pos q
    have : (roundHalfEven (q / ulp q) : ℚ) * ulp q - q
        = ((roundHalfEven (q / ulp q) : ℚ) - q / ulp q) * ulp q := by
      field_simp
    rw [this, abs_mul, abs_of_pos hp]
    have h2 : (2 : ℚ) ^ (b - 53) = 1 / 2 * 2 ^ (b - 52) := by
      rw [show b - 53 = (b - 52) - 1 by ring, zpow_sub₀ (by norm_num : (2 : ℚ) ≠ 0)]
      simp; ring
    rw [h2]
    exact mul_le_mul he hu hp.le (by norm_num)

/-- nearest-integer property of the rounded integer square root -/
theorem nearest_sqrt (N : ℕ) (hN : 1 ≤ N) :
    let f := Nat.sqrt N
    let m : ℕ := if N - f * f ≤ f then f else f + 1
    (2 * (m : ℤ) - 1) ^ 2 ≤ 4 * N ∧ 4 * (N : ℤ) ≤ (2 * m + 1) ^ 2 := by
  intro f m
  have h1 : f * f ≤ N := Nat.sqrt_le N
  have h2 : N < (f + 1) * (f + 1) := Nat.lt_succ_sqrt N
  have h1' : (f : ℤ) * f ≤ N := by exact_mod_cast h1
  have h2' : (N : ℤ) < (f + 1) * (f + 1) := by exact_mod_cast h2
  have hN' : (1 : ℤ) ≤ N := by exact_mod_cast hN
  have hf : (0 : ℤ) ≤ f := Int.natCast_nonneg f
  by_cases h : N - f * f ≤ f
  · have hm : m = f := if_pos h
    have h3 : (N : ℤ) ≤ f * f + f := by
      have : N ≤ f * f + f := by omega
      exact_mod_cast this
    rw [hm]
    constructor <;> nlinarith
  · have hm : m = f + 1 := if_neg h
    have h3 : (f : ℤ) * f + f + 1 ≤ N := by
      have : f * f + f + 1 ≤ N := by omega
      exact_mod_cast this
    rw [hm]
    push_cast
    constructor <;> nlinarith

theorem fsqrt_shape (n : ℕ) (h1 : 1 ≤ n) (h2 : n < 2 ^ 14) :
    ∃ m d : ℕ, 46 ≤ d ∧ d ≤ 52 ∧ m ≤ 2 ^ 53 ∧ fsqrt n = (m : ℚ) / 2 ^ d ∧
      (2 * (m : ℤ) - 1) ^ 2 ≤ 4 * (n * 4 ^ d) ∧ 4 * ((n : ℤ) * 4 ^ d) ≤ (2 * m + 1) ^ 2 := by
  have hn0 : n ≠ 0 := by omega
  have hlog : Nat.log2 n < 14 := (Nat.log2_lt hn0).mpr h2
  have he : Nat.log2 n / 2 ≤ 6 := by omega
  have hlt : n < 4 ^ (Nat.log2 n / 2 + 1) := by
    have h3 : n < 2 ^ (Nat.log2 n + 1) := Nat.lt_log2_self
    have h4 : (2 : ℕ) ^ (Nat.log2 n + 1) ≤ 2 ^ (2 * (Nat.log2 n / 2 + 1)) :=
      Nat.pow_le_pow_right (by norm_num) (by omega)
    have h5 : (2 : ℕ) ^ (2 * (Nat.log2 n / 2 + 1)) = 4 ^ (Nat.log2 n / 2 + 1) := by
      rw [pow_mul]; norm_num
    omega
  have hd1 : 46 ≤ 52 - Nat.log2 n / 2 := by omega
  have hd2 : 52 - Nat.log2 n / 2 ≤ 52 := by omega
  have hde : Nat.log2 n / 2 + 1 + (52 - Nat.log2 n / 2) = 53 := by omega
  have hfs : fsqrt n = ((if n * 4 ^ (52 - Nat.log2 n / 2) -
      Nat.sqrt (n * 4 ^ (52 - Nat.log2 n / 2)) * Nat.sqrt (n * 4 ^ (52 - Nat.log2 n / 2))
        ≤ Nat.sqrt (n * 4 ^ (52 - Nat.log2 n / 2))
      then Nat.sqrt (n * 4 ^ (52 - Nat.log2 n / 2))
      else Nat.sqrt (n * 4 ^ (52 - Nat.log2 n / 2)) + 1 : ℕ) : ℚ) /
        2 ^ (52 - Nat.log2 n / 2) := by
    simp only [fsqrt, hn0, if_false]
  generalize 52 - Nat.log2 n / 2 = d at *
  have hNpos : 1 ≤ n * 4 ^ d := Nat.one_le_iff_ne_zero.mpr (by positivity)
  have hnear := nearest_sqrt (n * 4 ^ d) hNpos
  simp only at hnear
  have hN : n * 4 ^ d < (2 ^ 53) ^ 2 := by
    have e1 : ((2 : ℕ) ^ 53) ^ 2 = 4 ^ (Nat.log2 n / 2 + 1) * 4 ^ d := by
      rw [← pow_add, hde]
      norm_num
    rw [e1]
    exact Nat.mul_lt_mul_of_pos_right hlt (by positivity)
  have hf : Nat.sqrt (n * 4 ^ d) < 2 ^ 53 := Nat.sqrt_lt'.mpr hN
  generalize hm : (if n * 4 ^ d - Nat.sqrt (n * 4 ^ d) * Nat.sqrt (n * 4 ^ d) ≤ Nat.sqrt (n * 4 ^ d)
      then Nat.sqrt (n * 4 ^ d) else Nat.sqrt (n * 4 ^ d) + 1) = m at *
  refine ⟨m, d, hd1, hd2, ?_, hfs, ?_, ?_⟩
  · rw [← hm]; split_ifs <;> omega
  · exact_mod_cast hnear.1
  · exact_mod_cast hnear.2

theorem fsqrt_bounds (n : ℕ) (h1 : 1 ≤ n) (h2 : n < 2 ^ 14) :
    1 ≤ 2 * fsqrt n ∧ (2 * fsqrt n - U) ^ 2 ≤ 4 * n ∧ 4 * (n : ℚ) ≤ (2 * fsqrt n + U) ^ 2 := by
  obtain ⟨m, d, hd1, hd2, hm, hr, hlo, hhi⟩ := fsqrt_shape n h1 h2
  have hs : (0 : ℚ) < 2 ^ d := by positivity
  have hsU : (2 : ℚ) ^ 46 ≤ 2 ^ d := pow_le_pow_right₀ (by norm_num) hd1
  have hlo' : (2 * (m : ℚ) - 1) ^ 2 ≤ 4 * (n * (2 ^ d) ^ 2) := by
    have : ((2 : ℚ) ^ d) ^ 2 = 4 ^ d := by rw [← pow_mul, mul_comm, pow_mul]; norm_num
    rw [this]; exact_mod_cast hlo
  have hhi' : 4 * ((n : ℚ) * (2 ^ d) ^ 2) ≤ (2 * m + 1) ^ 2 := by
    have : ((2 : ℚ) ^ d) ^ 2 = 4 ^ d := by rw [← pow_mul, mul_comm, pow_mul]; norm_num
    rw [this]; exact_mod_cast hhi
  have hn : (1 : ℚ) ≤ n := by exact_mod_cast h1
  have hm0 : (0 : ℚ) ≤ m := Nat.cast_nonneg m
  set s : ℚ := 2 ^ d with hsdef
  have hu : 1 / s ≤ U := by
    unfold U
    exact one_div_le_one_div_of_le (by positivity) hsU
  have hupos : 0 < 1 / s := by positivity
  have hUsmall : U ≤ 1 / 2 := by unfold U; norm_num
  have hrs : fsqrt n * s = m := by rw [hr]; field_simp
  set r : ℚ := fsqrt n with hrdef
  -- exact-ulp bounds
  have e1 : (2 * r - 1 / s) ^ 2 ≤ 4 * n := by
    have : (2 * r - 1 / s) ^ 2 = (2 * m - 1) ^ 2 / s ^ 2 := by
      rw [← hrs]; field_simp; ring
    rw [this, div_le_iff₀ (by positivity)]
    linarith
  have e2 : 4 * (n : ℚ) ≤ (2 * r + 1 / s) ^ 2 := by
    have : (2 * r + 1 / s) ^ 2 = (2 * m + 1) ^ 2 / s ^ 2 := by
      rw [← hrs]; field_simp; ring
    rw [this, le_div_iff₀ (by positivity)]
    linarith
  have hr0 : 0 ≤ r := by
    have : 0 ≤ r * s := by rw [hrs]; exact hm0
    exact nonneg_of_mul_nonneg_left this hs
  have e3 : 2 ≤ 2 * r + 1 / s := by
    by_contra hc
    push_neg at hc
    have : (2 * r + 1 / s) ^ 2 < 4 := by nlinarith
    linarith
  refine ⟨by linarith, ?_, ?_⟩
  · have a1 : 0 ≤ 2 * r - U := by linarith
    have a2 : 2 * r - U ≤ 2 * r - 1 / s := by linarith
    calc (2 * r - U) ^ 2 ≤ (2 * r - 1 / s) ^ 2 := pow_le_pow_left₀ a1 a2 2
      _ ≤ 4 * (n : ℚ) := e1
  · have a1 : 0 ≤ 2 * r + 1 / s := by linarith
    have a2 : 2 * r + 1 / s ≤ 2 * r + U := by linarith
    calc 4 * (n : ℚ) ≤ (2 * r + 1 / s) ^ 2 := e2
      _ ≤ (2 * r + U) ^ 2 := pow_le_pow_left₀ a1 a2 2

theorem fsqrt_lt_of_lt (n n' : ℕ) (h1 : 1 ≤ n) (h : n < n') (h2 : n' < 2 ^ 14) :
    fsqrt n < fsqrt n' := by
  obtain ⟨a1, a2, a3⟩ := fsqrt_bounds n h1 (by omega)
  obtain ⟨b1, b2, b3⟩ := fsqrt_bounds n' (by omega) h2
  by_contra hc
  push_neg at hc
  have hU : U = 1 / 2 ^ 46 := rfl
  have hUpos : 0 < U := by rw [hU]; positivity
  have hn : (n : ℚ) + 1 ≤ n' := by exact_mod_cast h
  have hn2 : (n : ℚ) < 16384 := by exact_mod_cast (by omega : n < 16384)
  have c1 : (2 * fsqrt n' + U) ^ 2 ≤ (2 * fsqrt n + U) ^ 2 :=
    pow_le_pow_left₀ (by linarith) (by linarith) 2
  have c2 : (2 * fsqrt n + U) ^ 2 - (2 * fsqrt n - U) ^ 2 = 8 * fsqrt n * U := by ring
  have c3 : 4 ≤ 8 * fsqrt n * U := by linarith
  have c4 : 2 * fsqrt n - U < 256 := by
    by_contra h'
    push_neg at h'
    have : (256 : ℚ) ^ 2 ≤ (2 * fsqrt n - U) ^ 2 := pow_le_pow_left₀ (by norm_num) h' 2
    norm_num at this
    linarith
  have c5 : fsqrt n < 129 := by rw [hU] at c4; norm_num at c4; linarith
  rw [hU] at c3
  norm_num at c3
  linarith

theorem fsqrt_sq (k : ℕ) (h1 : 1 ≤ k) : fsqrt (k * k) = k := by
  have hk : k * k ≠ 0 := by positivity
  simp only [fsqrt, hk, if_false]
  generalize 52 - Nat.log2 (k * k) / 2 = d
  have e : k * k * 4 ^ d = (k * 2 ^ d) ^ 2 := by
    rw [mul_pow, ← pow_mul, mul_comm d 2, pow_mul]; norm_num; ring
  rw [e, Nat.sqrt_eq']
  have : (k * 2 ^ d) ^ 2 - k * 2 ^ d * (k * 2 ^ d) = 0 := by
    rw [pow_two]; exact Nat.sub_self _
  rw [this, if_pos (Nat.zero_le _)]
  push_cast
  field_simp

/-- scaling a square root by a power of two is exact -/
theorem fl_fsqrt_scale (n : ℕ) (h1 : 1 ≤ n) (h2 : n < 2 ^ 14) (t : ℤ) :
    fl (fsqrt n * 2 ^ t) = fsqrt n * 2 ^ t := by
  obtain ⟨m, d, hd1, hd2, hm, hr, -, -⟩ := fsqrt_shape n h1 h2
  have e : fsqrt n * 2 ^ t = ((m : ℤ) : ℚ) * 2 ^ (t - d) := by
    rw [hr, zpow_sub₀ (by norm_num : (2 : ℚ) ≠ 0), zpow_natCast]
    push_cast
    field_simp
  rw [e]
  apply fl_exact
  rw [abs_of_nonneg (by positivity)]
  rw [show t - (d : ℤ) + 53 = 53 + (t - d) by ring, zpow_add₀ (by norm_num : (2 : ℚ) ≠ 0)]
  apply mul_le_mul_of_nonneg_right _ (by positivity)
  have : (m : ℚ) ≤ 2 ^ 53 := by exact_mod_cast hm
  rw [show (53 : ℤ) = ((53 : ℕ) : ℤ) by rfl, zpow_natCast]
  simpa using this

theorem toUChar_of_floor (v : ℚ) (z : ℕ) (hz : z ≤ 255) (h1 : (z : ℚ) ≤ v) (h2 : v < z + 1) :
    toUChar v = z := by
  have hv : 0 ≤ v := le_trans (Nat.cast_nonneg z) h1
  have hf : ⌊v⌋ = (z : ℤ) := by
    rw [Int.floor_eq_iff]
    exact ⟨by exact_mod_cast h1, by exact_mod_cast h2⟩
  unfold toUChar truncToZero
  rw [if_pos hv, hf]
  omega

theorem fl_natCast (z : ℕ) (hz : z ≤ 2 ^ 53) : fl (z : ℚ) = z := by
  have := fl_exact (z : ℤ) 0 (by
    simp only [zpow_zero, mul_one, zero_add]
    rw [abs_of_nonneg (by positivity)]
    rw [show (53 : ℤ) = ((53 : ℕ) : ℤ) by rfl, zpow_natCast]
    exact_mod_cast hz)
  simpa using this

theorem twice_fsqrt_gap (n j : ℕ) (h1 : 1 ≤ n) (h2 : n < 2 ^ 14)
    (hj1 : j * j < 4 * n) (hj2 : 4 * n < (j + 1) * (j + 1)) :
    (j : ℚ) + 1 / 2 ^ 20 ≤ 2 * fsqrt n ∧ 2 * fsqrt n ≤ j + 1 - 1 / 2 ^ 20 := by
  obtain ⟨a1, a2, a3⟩ := fsqrt_bounds n h1 h2
  have hU : U = 1 / 2 ^ 46 := rfl
  have hj : j ≤ 255 := by
    by_contra hc
    push_neg at hc
    have : 256 * 256 ≤ j * j := Nat.mul_le_mul hc hc
    omega
  have hjq : (j : ℚ) ≤ 255 := by exact_mod_cast hj
  have hj0 : (0 : ℚ) ≤ j := Nat.cast_nonneg j
  have k1 : (j : ℚ) * j + 1 ≤ 4 * n := by exact_mod_cast hj1
  have k2 : 4 * (n : ℚ) + 1 ≤ (j + 1) * (j + 1) := by exact_mod_cast hj2
  set r := fsqrt n
  constructor
  · by_contra hc
    push_neg at hc
    have b1 : 2 * r + U ≤ j + 1 / 2 ^ 19 := by rw [hU]; norm_num at hc ⊢; linarith
    have b2 : (2 * r + U) ^ 2 ≤ ((j : ℚ) + 1 / 2 ^ 19) ^ 2 :=
      pow_le_pow_left₀ (by rw [hU]; norm_num; linarith) b1 2
    have b3 : ((j : ℚ) + 1 / 2 ^ 19) ^ 2 = j * j + 2 * j * (1 / 2 ^ 19) + (1 / 2 ^ 19) ^ 2 := by
      ring
    have b4 : ((j : ℚ) + 1 / 2 ^ 19) ^ 2 < j * j + 1 := by
      rw [b3]; norm_num; linarith
    linarith
  · by_contra hc
    push_neg at hc
    have b1 : (j : ℚ) + 1 - 1 / 2 ^ 19 ≤ 2 * r - U := by rw [hU]; norm_num at hc ⊢; linarith
    have b2 : ((j : ℚ) + 1 - 1 / 2 ^ 19) ^ 2 ≤ (2 * r - U) ^ 2 :=
      pow_le_pow_left₀ (by norm_num; linarith) b1 2
    have b3 : ((j : ℚ) + 1 - 1 / 2 ^ 19) ^ 2
        = (j + 1) * (j + 1) - 2 * (j + 1) * (1 / 2 ^ 19) + (1 / 2 ^ 19) ^ 2 := by
      ring
    have b4 : (j + 1) * (j + 1) - 1 < ((j : ℚ) + 1 - 1 / 2 ^ 19) ^ 2 := by
      rw [b3]; norm_num; linarith
    linarith

theorem fsqrt_lt_64 (n : ℕ) (h1 : 1 ≤ n) (h2 : n < 4096) : fsqrt n < 64 := by
  have := fsqrt_lt_of_lt n 4096 h1 h2 (by norm_num)
  have e : fsqrt 4096 = 64 := by
    have := fsqrt_sq 64 (by norm_num)
    simpa using this
  rwa [e] at this

theorem fsqrt_ge_64 (n : ℕ) (h1 : 4096 ≤ n) (h2 : n < 2 ^ 14) : 64 ≤ fsqrt n := by
  have e : fsqrt 4096 = 64 := by
    have := fsqrt_sq 64 (by norm_num)
    simpa using this
  rcases Nat.eq_or_lt_of_le h1 with h | h
  · rw [← h, e]
  · have := fsqrt_lt_of_lt 4096 n (by norm_num) h h2
    rw [e] at this
    exact this.le

/-- the doubled, clamped distance `MIN (c, 64) * 128. / 64` is computed exactly -/
theorem scaled_fsqrt (n : ℕ) (h1 : 1 ≤ n) (h2 : n < 4096) :
    fl (fl (MIN (fsqrt n) 64 * 128) / 64) = 2 * fsqrt n := by
  have hlt := fsqrt_lt_64 n h1 h2
  have hn : n < 2 ^ 14 := by omega
  have e1 : MIN (fsqrt n) 64 = fsqrt n := if_pos hlt
  have e2 := fl_fsqrt_scale n h1 hn 7
  have e3 := fl_fsqrt_scale n h1 hn 1
  have p7 : (2 : ℚ) ^ (7 : ℤ) = 128 := by norm_num
  have p1 : (2 : ℚ) ^ (1 : ℤ) = 2 := by norm_num
  rw [p7] at e2
  rw [p1] at e3
  rw [e1, e2, show fsqrt n * 128 / 64 = fsqrt n * 2 by ring, e3]
  ring

theorem scaled_clamped (c : ℚ) (h : 64 ≤ c) : fl (fl (MIN c 64 * 128) / 64) = 128 := by
  have e1 : MIN c 64 = 64 := if_neg (not_lt.mpr h)
  have a := fl_natCast 8192 (by norm_num)
  have b := fl_natCast 128 (by norm_num)
  norm_num at a b
  rw [e1]
  norm_num
  rw [a]
  norm_num
  exact b

theorem R_cast : ((FILTERWIDTH * SAMPLING : ℤ) : ℚ) = 64 := by
  norm_num [FILTERWIDTH, SAMPLING]

theorem encInD_eq (c : ℚ) : encInD c = fl (128 - fl (fl (MIN c 64 * 128) / 64)) := by
  unfold encInD fsub fdiv fmul
  rw [R_cast]

theorem encOutD_eq (c : ℚ) : encOutD c = fl (127 + fl (fl (MIN c 64 * 128) / 64)) := by
  unfold encOutD fadd fdiv fmul
  rw [R_cast]

theorem encInD_clamped (c : ℚ) (h : 64 ≤ c) : encInD c = 0 := by
  rw [encInD_eq, scaled_clamped c h]
  norm_num [fl]

theorem encOutD_clamped (c : ℚ) (h : 64 ≤ c) : encOutD c = 255 := by
  rw [encOutD_eq, scaled_clamped c h]
  have b := fl_natCast 255 (by norm_num)
  norm_num at b ⊢
  exact b

/-- a multiple of four that is a perfect square is four times a perfect square -/
theorem square_of_four_mul (n t : ℕ) (h : 4 * n = t * t) : ∃ k, t = 2 * k ∧ n = k * k := by
  have ht : t % 2 = 0 := by
    by_contra hc
    have h1 : t % 2 = 1 := by omega
    have h2 : (t * t) % 2 = 1 := by rw [Nat.mul_mod, h1]
    omega
  refine ⟨t / 2, by omega, ?_⟩
  have e : t = 2 * (t / 2) := by omega
  have h3 : 4 * n = 4 * (t / 2 * (t / 2)) := by
    calc 4 * n = t * t := h
      _ = (2 * (t / 2)) * (2 * (t / 2)) := by rw [← e]
      _ = 4 * (t / 2 * (t / 2)) := by ring
  omega

theorem encInD_fsqrt (n : ℕ) (h1 : 1 ≤ n) (h2 : n < 4096) :
    Nat.sqrt (4 * n - 1) ≤ 127 ∧
    ((127 - Nat.sqrt (4 * n - 1) : ℕ) : ℚ) ≤ encInD (fsqrt n) ∧
    encInD (fsqrt n) < (127 - Nat.sqrt (4 * n - 1) : ℕ) + 1 := by
  have hs : Nat.sqrt (4 * n - 1) < 128 := Nat.sqrt_lt'.mpr (by omega)
  have hs1 : Nat.sqrt (4 * n - 1) * Nat.sqrt (4 * n - 1) ≤ 4 * n - 1 := Nat.sqrt_le _
  have hs2 : 4 * n - 1 < (Nat.sqrt (4 * n - 1) + 1) * (Nat.sqrt (4 * n - 1) + 1) :=
    Nat.lt_succ_sqrt _
  generalize Nat.sqrt (4 * n - 1) = s at *
  refine ⟨by omega, ?_⟩
  have hc : ((127 - s : ℕ) : ℚ) = 127 - (s : ℚ) := by
    rw [Nat.cast_sub (by omega)]; norm_num
  rw [encInD_eq, scaled_fsqrt n h1 h2, hc]
  rcases Nat.eq_or_lt_of_le (show 4 * n ≤ (s + 1) * (s + 1) by omega) with he | hl
  · obtain ⟨k, hk1, hk2⟩ := square_of_four_mul n (s + 1) he
    have hk : 1 ≤ k := by omega
    have hr : fsqrt n = k := by rw [hk2]; exact fsqrt_sq k hk
    have e : (128 : ℚ) - 2 * fsqrt n = ((127 - s : ℕ) : ℚ) := by
      rw [hr, hc]
      have : (s : ℚ) + 1 = 2 * k := by exact_mod_cast hk1
      linarith
    rw [e, fl_natCast _ (by norm_num; omega), hc]
    constructor <;> linarith
  · obtain ⟨g1, g2⟩ := twice_fsqrt_gap n s h1 (by omega) (by omega) hl
    have hq : |(128 : ℚ) - 2 * fsqrt n| < 2 ^ ((7 : ℤ) + 1) := by
      have : (0 : ℚ) ≤ s := Nat.cast_nonneg s
      rw [abs_lt]
      norm_num at g1 g2 ⊢
      constructor <;> linarith
    have herr := fl_err _ 7 hq
    rw [abs_le] at herr
    norm_num at herr g1 g2
    constructor <;> linarith

theorem encOutD_fsqrt (n : ℕ) (h1 : 1 ≤ n) (h2 : n < 4096) :
    Nat.sqrt (4 * n) ≤ 127 ∧
    ((127 + Nat.sqrt (4 * n) : ℕ) : ℚ) ≤ encOutD (fsqrt n) ∧
    encOutD (fsqrt n) < (127 + Nat.sqrt (4 * n) : ℕ) + 1 := by
  have hs : Nat.sqrt (4 * n) < 128 := Nat.sqrt_lt'.mpr (by omega)
  have hs1 : Nat.sqrt (4 * n) * Nat.sqrt (4 * n) ≤ 4 * n := Nat.sqrt_le _
  have hs2 : 4 * n < (Nat.sqrt (4 * n) + 1) * (Nat.sqrt (4 * n) + 1) := Nat.lt_succ_sqrt _
  generalize Nat.sqrt (4 * n) = s at *
  refine ⟨by omega, ?_⟩
  have hc : ((127 + s : ℕ) : ℚ) = 127 + (s : ℚ) := by push_cast; ring
  rw [encOutD_eq, scaled_fsqrt n h1 h2, hc]
  rcases Nat.eq_or_lt_of_le hs1 with he | hl
  · obtain ⟨k, hk1, hk2⟩ := square_of_four_mul n s he.symm
    have hk : 1 ≤ k := by
      rcases Nat.eq_zero_or_pos k with h0 | h0
      · subst h0; omega
      · exact h0
    have hr : fsqrt n = k := by rw [hk2]; exact fsqrt_sq k hk
    have e : (127 : ℚ) + 2 * fsqrt n = ((127 + s : ℕ) : ℚ) := by
      rw [hr, hc]
      have : (s : ℚ) = 2 * k := by exact_mod_cast hk1
      linarith
    rw [e, fl_natCast _ (by norm_num; omega), hc]
    constructor <;> linarith
  · obtain ⟨g1, g2⟩ := twice_fsqrt_gap n s h1 (by omega) hl hs2
    have hq : |(127 : ℚ) + 2 * fsqrt n| < 2 ^ ((7 : ℤ) + 1) := by
      have : (0 : ℚ) ≤ s := Nat.cast_nonneg s
      have : (s : ℚ) ≤ 127 := by exact_mod_cast (by omega : s ≤ 127)
      rw [abs_lt]
      norm_num at g1 g2 ⊢
      constructor <;> linarith
    have herr := fl_err _ 7 hq
    rw [abs_le] at herr
    norm_num at herr g1 g2
    constructor <;> linarith

theorem mem_loopRange (lo hi i : ℤ) : i ∈ loopRange lo hi ↔ lo ≤ i ∧ i ≤ hi := by
  unfold loopRange
  simp only [List.mem_map, List.mem_range]
  constructor
  · rintro ⟨k, hk, rfl⟩
    have : (k : ℤ) < ((hi + 1 - lo).toNat : ℤ) := by exact_mod_cast hk
    have h0 : (0 : ℤ) ≤ (k : ℤ) := Int.natCast_nonneg k
    omega
  · intro h
    refine ⟨(i - lo).toNat, ?_, ?_⟩
    · have : (i - lo).toNat < (hi + 1 - lo).toNat := by omega
      exact this
    · have : ((i - lo).toNat : ℤ) = i - lo := Int.toNat_of_nonneg (by omega)
      rw [this]; ring

theorem MIN_le_left (a b : ℚ) : MIN a b ≤ a := by
  unfold MIN; split_ifs <;> linarith

theorem MIN_le_right (a b : ℚ) : MIN a b ≤ b := by
  unfold MIN; split_ifs <;> linarith

theorem MIN_eq (a b : ℚ) : MIN a b = a ∨ MIN a b = b := by
  unfold MIN; split_ifs <;> simp

theorem foldMin_spec {α : Type} (p : α → Bool) (f : α → ℚ) (L : List α) (c0 c : ℚ)
    (hc : c = L.foldl (fun c a => if p a then MIN c (f a) else c) c0) :
    (c = c0 ∨ ∃ a ∈ L, p a = true ∧ c = f a) ∧ c ≤ c0 ∧ ∀ a ∈ L, p a = true → c ≤ f a := by
  induction L generalizing c0 with
  | nil => simp at hc; simp [hc]
  | cons a L ih =>
    simp only [List.foldl_cons] at hc
    have s1 : (if p a then MIN c0 (f a) else c0) ≤ c0 := by
      split_ifs
      · exact MIN_le_left _ _
      · exact le_refl _
    have s2 : (if p a then MIN c0 (f a) else c0) = c0 ∨
        (p a = true ∧ (if p a then MIN c0 (f a) else c0) = f a) := by
      by_cases hp : p a = true
      · rw [if_pos hp]
        rcases MIN_eq c0 (f a) with h | h
        · left; exact h
        · right; exact ⟨hp, h⟩
      · rw [if_neg hp]; left; rfl
    have s3 : p a = true → (if p a then MIN c0 (f a) else c0) ≤ f a := by
      intro hp
      rw [if_pos hp]
      exact MIN_le_right _ _
    generalize (if p a then MIN c0 (f a) else c0) = c1 at s1 s2 s3 hc
    obtain ⟨h1, h2, h3⟩ := ih c1 hc
    refine ⟨?_, le_trans h2 s1, ?_⟩
    · rcases h1 with h1 | ⟨b, hb, hpb, hcb⟩
      · rcases s2 with s2 | ⟨hp, s2⟩
        · left; rw [h1, s2]
        · right; exact ⟨a, List.mem_cons_self _ _, hp, by rw [h1, s2]⟩
      · right; exact ⟨b, List.mem_cons_of_mem _ hb, hpb, hcb⟩
    · intro b hb hpb
      rcases List.mem_cons.mp hb with rfl | hb'
      · exact le_trans h2 (s3 hpb)
      · exact h3 b hb' hpb

theorem foldMin2_spec {α β : Type} (p : α → β → Bool) (f : α → β → ℚ) (L1 : List α)
    (L2 : List β) (c0 c : ℚ)
    (hc : c = L1.foldl
      (fun c i => L2.foldl (fun c j => if p i j then MIN c (f i j) else c) c) c0) :
    (c = c0 ∨ ∃ i ∈ L1, ∃ j ∈ L2, p i j = true ∧ c = f i j) ∧ c ≤ c0 ∧
      ∀ i ∈ L1, ∀ j ∈ L2, p i j = true → c ≤ f i j := by
  induction L1 generalizing c0 with
  | nil => simp at hc; simp [hc]
  | cons i L1 ih =>
    simp only [List.foldl_cons] at hc
    obtain ⟨h1, h2, h3⟩ := ih (L2.foldl (fun c j => if p i j then MIN c (f i j) else c) c0) hc
    obtain ⟨k1, k2, k3⟩ := foldMin_spec (p i) (f i) L2 c0 _ rfl
    refine ⟨?_, le_trans h2 k2, ?_⟩
    · rcases h1 with h1 | ⟨i', hi', j, hj, hp, hc⟩
      · rcases k1 with k1 | ⟨j, hj, hp, hc⟩
        · left; rw [h1, k1]
        · right; exact ⟨i, List.mem_cons_self _ _, j, hj, hp, by rw [h1, hc]⟩
      · right; exact ⟨i', List.mem_cons_of_mem _ hi', j, hj, hp, hc⟩
    · intro i' hi' j hj hp
      rcases List.mem_cons.mp hi' with rfl | hi''
      · exact le_trans h2 (k3 j hj hp)
      · exact h3 i' hi'' j hj hp

theorem sqDist_lt (i j : ℤ) (h : InWindow i j) : sqDist i j < 2 ^ 14 := by
  obtain ⟨h1, h2, h3, h4⟩ := h
  simp only [FILTERWIDTH, SAMPLING] at h1 h2 h3 h4
  have a : i * i ≤ 64 * 64 := by nlinarith
  have b : j * j ≤ 64 * 64 := by nlinarith
  unfold sqDist
  omega

theorem sqDist_pos (i j : ℤ) (h : ¬ (i = 0 ∧ j = 0)) : 1 ≤ sqDist i j := by
  unfold sqDist
  have a : 0 ≤ i * i := mul_self_nonneg i
  have b : 0 ≤ j * j := mul_self_nonneg j
  by_contra hc
  have h0 : i * i + j * j = 0 := by omega
  have hi : i * i = 0 := by omega
  have hj : j * j = 0 := by omega
  exact h ⟨mul_self_eq_zero.mp hi, mul_self_eq_zero.mp hj⟩

theorem fsqrt_lt_129 (n : ℕ) (h1 : 1 ≤ n) (h2 : n < 2 ^ 14) : fsqrt n < 129 := by
  obtain ⟨a1, a2, a3⟩ := fsqrt_bounds n h1 h2
  have hU : U = 1 / 2 ^ 46 := rfl
  have hn2 : (n : ℚ) < 16384 := by exact_mod_cast (by omega : n < 16384)
  by_contra hc
  push_neg at hc
  have : (256 : ℚ) ^ 2 ≤ (2 * fsqrt n - U) ^ 2 :=
    pow_le_pow_left₀ (by norm_num) (by rw [hU]; norm_num; linarith) 2
  norm_num at this
  linarith

theorem fsqrt_le_imp (n n' : ℕ) (_h1 : 1 ≤ n) (h1' : 1 ≤ n') (h2 : n < 2 ^ 14)
    (h : fsqrt n ≤ fsqrt n') : n ≤ n' := by
  by_contra hc
  push_neg at hc
  have := fsqrt_lt_of_lt n' n h1' hc h2
  linarith

/-- Outcome of a search of the window for the offsets selected by `p`: either no offset is
selected and the sentinel survives, or the result is the square root of the least squared
length of a selected offset. -/
theorem window_fold_cases (p : ℤ → ℤ → Bool) (hc : p 0 0 = false) :
    ((loopRange (-FILTERWIDTH * SAMPLING) (FILTERWIDTH * SAMPLING)).foldl (fun c i =>
      (loopRange (-FILTERWIDTH * SAMPLING) (FILTERWIDTH * SAMPLING)).foldl (fun c j =>
        if p i j then MIN c (fsqrt (i * i + j * j).toNat) else c) c) 10000000000
        = 10000000000 ∧
      ∀ i j, InWindow i j → p i j = false) ∨
    (∃ i0 j0, InWindow i0 j0 ∧ p i0 j0 = true ∧
      (∀ i j, InWindow i j → p i j = true → sqDist i0 j0 ≤ sqDist i j) ∧
      1 ≤ sqDist i0 j0 ∧
      (loopRange (-FILTERWIDTH * SAMPLING) (FILTERWIDTH * SAMPLING)).foldl (fun c i =>
        (loopRange (-FILTERWIDTH * SAMPLING) (FILTERWIDTH * SAMPLING)).foldl (fun c j =>
          if p i j then MIN c (fsqrt (i * i + j * j).toNat) else c) c) 10000000000
        = fsqrt (sqDist i0 j0)) := by
  have hpos : ∀ i j, p i j = true → 1 ≤ sqDist i j := by
    intro i j h
    apply sqDist_pos
    rintro ⟨rfl, rfl⟩
    rw [hc] at h
    exact Bool.false_ne_true h
  have hw : ∀ i j, InWindow i j ↔
      (i ∈ loopRange (-FILTERWIDTH * SAMPLING) (FILTERWIDTH * SAMPLING) ∧
       j ∈ loopRange (-FILTERWIDTH * SAMPLING) (FILTERWIDTH * SAMPLING)) := by
    intro i j
    rw [mem_loopRange, mem_loopRange]
    unfold InWindow
    tauto
  obtain ⟨k1, k2, k3⟩ := foldMin2_spec p
    (fun i j => fsqrt (i * i + j * j).toNat)
    (loopRange (-FILTERWIDTH * SAMPLING) (FILTERWIDTH * SAMPLING))
    (loopRange (-FILTERWIDTH * SAMPLING) (FILTERWIDTH * SAMPLING)) 10000000000 _ rfl
  generalize (loopRange (-FILTERWIDTH * SAMPLING) (FILTERWIDTH * SAMPLING)).foldl (fun c i =>
      (loopRange (-FILTERWIDTH * SAMPLING) (FILTERWIDTH * SAMPLING)).foldl (fun c j =>
        if p i j then MIN c (fsqrt (i * i + j * j).toNat) else c) c) 10000000000 = c at *
  rcases k1 with k1 | ⟨i0, hi0, j0, hj0, hp, hval⟩
  · left
    refine ⟨k1, ?_⟩
    intro i j hij
    by_contra hne
    have ht : p i j = true := by
      cases h : p i j
      · exact absurd h hne
      · rfl
    have := k3 i ((hw i j).mp hij).1 j ((hw i j).mp hij).2 ht
    have hlt := fsqrt_lt_129 (sqDist i j) (hpos i j ht) (sqDist_lt i j hij)
    rw [k1] at this
    unfold sqDist at hlt
    linarith
  · right
    have hin : InWindow i0 j0 := (hw i0 j0).mpr ⟨hi0, hj0⟩
    refine ⟨i0, j0, hin, hp, ?_, hpos i0 j0 hp, hval⟩
    intro i j hij ht
    have := k3 i ((hw i j).mp hij).1 j ((hw i j).mp hij).2 ht
    rw [hval] at this
    exact fsqrt_le_imp _ _ (hpos i0 j0 hp) (hpos i j ht) (sqDist_lt i0 j0 hin) this

/-- Outcome of the search loops of `setup_texture`. -/
theorem scan_cases (opp : ℕ → Bool) (bm : Bitmap) (sx sy : ℤ) (hc : opp (S bm sx sy) = false) :
    (scan opp bm sx sy = 10000000000 ∧
      ∀ i j, InWindow i j → opp (S bm (sx + i) (sy + j)) = false) ∨
    (∃ i0 j0, InWindow i0 j0 ∧ opp (S bm (sx + i0) (sy + j0)) = true ∧
      (∀ i j, InWindow i j → opp (S bm (sx + i) (sy + j)) = true → sqDist i0 j0 ≤ sqDist i j) ∧
      1 ≤ sqDist i0 j0 ∧ scan opp bm sx sy = fsqrt (sqDist i0 j0)) :=
  window_fold_cases (fun i j => opp (S bm (sx + i) (sy + j))) (by simpa using hc)

theorem opposite_of_inside (bm : Bitmap) (sx sy i j : ℤ) (h : Inside bm sx sy) :
    Opposite bm sx sy i j ↔ (fun v => decide (v < 128)) (S bm (sx + i) (sy + j)) = true := by
  unfold Opposite Inside at *
  simp [h]

theorem opposite_of_outside (bm : Bitmap) (sx sy i j : ℤ) (h : ¬ Inside bm sx sy) :
    Opposite bm sx sy i j ↔ (fun v => decide (v ≥ 128)) (S bm (sx + i) (sy + j)) = true := by
  unfold Opposite Inside at *
  simp [h]

theorem nearest_of_scan (opp : ℕ → Bool) (bm : Bitmap) (sx sy : ℤ)
    (hopp : ∀ i j, Opposite bm sx sy i j ↔ opp (S bm (sx + i) (sy + j)) = true)
    (hc : opp (S bm sx sy) = false) :
    ∃ o, Nearest bm sx sy o ∧ scan opp bm sx sy = distQ o ∧
      ∀ n, o = some n → 1 ≤ n ∧ n < 2 ^ 14 := by
  rcases scan_cases opp bm sx sy hc with ⟨h1, h2⟩ | ⟨i0, j0, hin, hp, hmin, hpos, hval⟩
  · refine ⟨none, ?_, h1, by simp⟩
    intro i j hij ho
    have := h2 i j hij
    rw [(hopp i j).mp ho] at this
    exact Bool.noConfusion this
  · refine ⟨some (sqDist i0 j0), ⟨⟨i0, j0, hin, (hopp i0 j0).mpr hp, rfl⟩, ?_⟩, hval, ?_⟩
    · intro i j hij ho
      exact hmin i j hij ((hopp i j).mp ho)
    · intro n hn
      cases hn
      exact ⟨hpos, sqDist_lt i0 j0 hin⟩

theorem nearest_unique (bm : Bitmap) (sx sy : ℤ) (o o' : Option ℕ)
    (h : Nearest bm sx sy o) (h' : Nearest bm sx sy o') : o = o' := by
  cases o with
  | none =>
    cases o' with
    | none => rfl
    | some n' =>
      obtain ⟨⟨i, j, hij, ho, -⟩, -⟩ := h'
      exact absurd ho (h i j hij)
  | some n =>
    cases o' with
    | none =>
      obtain ⟨⟨i, j, hij, ho, -⟩, -⟩ := h
      exact absurd ho (h' i j hij)
    | some n' =>
      obtain ⟨⟨i, j, hij, ho, hn⟩, hm⟩ := h
      obtain ⟨⟨i', j', hij', ho', hn'⟩, hm'⟩ := h'
      have a := hm i' j' hij' ho'
      have b := hm' i j hij ho
      rw [hn] at b
      rw [hn'] at a
      rw [Nat.le_antisymm a b]

theorem exists_nearest (bm : Bitmap) (sx sy : ℤ) :
    ∃ o, Nearest bm sx sy o ∧ ∀ n, o = some n → 1 ≤ n ∧ n < 2 ^ 14 := by
  by_cases h : Inside bm sx sy
  · obtain ⟨o, h1, -, h3⟩ := nearest_of_scan (fun v => decide (v < 128)) bm sx sy
      (fun i j => opposite_of_inside bm sx sy i j h) (by unfold Inside at h; simp; omega)
    exact ⟨o, h1, h3⟩
  · obtain ⟨o, h1, -, h3⟩ := nearest_of_scan (fun v => decide (v ≥ 128)) bm sx sy
      (fun i j => opposite_of_outside bm sx sy i j h) (by unfold Inside at h; simp; omega)
    exact ⟨o, h1, h3⟩

theorem scan_inside (bm : Bitmap) (sx sy : ℤ) (o : Option ℕ) (h : Inside bm sx sy)
    (ho : Nearest bm sx sy o) :
    scan (fun v => decide (v < 128)) bm sx sy = distQ o ∧ ∀ n, o = some n → 1 ≤ n ∧ n < 2 ^ 14 := by
  obtain ⟨o', h1, h2, h3⟩ := nearest_of_scan (fun v => decide (v < 128)) bm sx sy
    (fun i j => opposite_of_inside bm sx sy i j h) (by unfold Inside at h; simp; omega)
  rw [nearest_unique bm sx sy o o' ho h1]
  exact ⟨h2, h3⟩

theorem scan_outside (bm : Bitmap) (sx sy : ℤ) (o : Option ℕ) (h : ¬ Inside bm sx sy)
    (ho : Nearest bm sx sy o) :
    scan (fun v => decide (v ≥ 128)) bm sx sy = distQ o ∧ ∀ n, o = some n → 1 ≤ n ∧ n < 2 ^ 14 := by
  obtain ⟨o', h1, h2, h3⟩ := nearest_of_scan (fun v => decide (v ≥ 128)) bm sx sy
    (fun i j => opposite_of_outside bm sx sy i j h) (by unfold Inside at h; simp; omega)
  rw [nearest_unique bm sx sy o o' ho h1]
  exact ⟨h2, h3⟩

theorem insideCode_le (o : Option ℕ) : insideCode o ≤ 127 := by
  unfold insideCode
  omega

theorem sqrt_16383 : Nat.sqrt 16383 = 127 :=
  (Nat.eq_sqrt.mpr ⟨by norm_num, by norm_num⟩).symm

theorem sqrt_16384 : Nat.sqrt 16384 = 128 :=
  (Nat.eq_sqrt.mpr ⟨by norm_num, by norm_num⟩).symm

theorem clampedSq_le (o : Option ℕ) : clampedSq o ≤ 4096 := by
  cases o with
  | none => simp [clampedSq]
  | some n => simp only [clampedSq]; omega

theorem outsideCode_le (o : Option ℕ) : outsideCode o ≤ 255 := by
  unfold outsideCode
  have : Nat.sqrt (4 * clampedSq o) ≤ Nat.sqrt 16384 :=
    Nat.sqrt_le_sqrt (by have := clampedSq_le o; omega)
  rw [sqrt_16384] at this
  omega

theorem clampedSq_none : clampedSq none = 4096 := rfl

theorem clampedSq_some (n : ℕ) : clampedSq (some n) = min n 4096 := rfl

theorem insideCode_far (o : Option ℕ) (h : clampedSq o = 4096) : insideCode o = 0 := by
  rw [insideCode, h, show 4 * 4096 - 1 = 16383 from rfl, sqrt_16383]

theorem outsideCode_far (o : Option ℕ) (h : clampedSq o = 4096) : outsideCode o = 255 := by
  rw [outsideCode, h, show 4 * 4096 = 16384 from rfl, sqrt_16384]

theorem encInD_distQ (o : Option ℕ) (h : ∀ n, o = some n → 1 ≤ n ∧ n < 2 ^ 14) :
    (insideCode o : ℚ) ≤ encInD (distQ o) ∧ encInD (distQ o) < insideCode o + 1 := by
  cases o with
  | none =>
    rw [insideCode_far none clampedSq_none, distQ, encInD_clamped _ (by norm_num)]
    norm_num
  | some n =>
    obtain ⟨h1, h2⟩ := h n rfl
    rw [distQ]
    by_cases hn : n < 4096
    · rw [insideCode, clampedSq_some, Nat.min_eq_left hn.le]
      exact (encInD_fsqrt n h1 hn).2
    · rw [insideCode_far (some n) (by rw [clampedSq_some]; exact Nat.min_eq_right (by omega)),
        encInD_clamped _ (fsqrt_ge_64 n (by omega) h2)]
      norm_num

theorem encOutD_distQ (o : Option ℕ) (h : ∀ n, o = some n → 1 ≤ n ∧ n < 2 ^ 14) :
    (outsideCode o : ℚ) ≤ encOutD (distQ o) ∧ encOutD (distQ o) < outsideCode o + 1 := by
  cases o with
  | none =>
    rw [outsideCode_far none clampedSq_none, distQ, encOutD_clamped _ (by norm_num)]
    norm_num
  | some n =>
    obtain ⟨h1, h2⟩ := h n rfl
    rw [distQ]
    by_cases hn : n < 4096
    · rw [outsideCode, clampedSq_some, Nat.min_eq_left hn.le]
      exact (encOutD_fsqrt n h1 hn).2
    · rw [outsideCode_far (some n) (by rw [clampedSq_some]; exact Nat.min_eq_right (by omega)),
        encOutD_clamped _ (fsqrt_ge_64 n (by omega) h2)]
      norm_num

theorem texelD_inside (bm : Bitmap) (x y : ℤ) (o : Option ℕ)
    (h : Inside bm ((x - FILTERWIDTH) * SAMPLING) ((y - FILTERWIDTH) * SAMPLING))
    (ho : Nearest bm ((x - FILTERWIDTH) * SAMPLING) ((y - FILTERWIDTH) * SAMPLING) o) :
    (insideCode o : ℚ) ≤ texelD bm x y ∧ texelD bm x y < insideCode o + 1 ∧
      texel bm x y = insideCode o := by
  obtain ⟨h1, h2⟩ := scan_inside bm _ _ o h ho
  have e : texelD bm x y = encInD (distQ o) := by
    unfold Inside at h
    unfold texelD
    simp only [ge_iff_le, h, if_true]
    rw [h1]
  obtain ⟨b1, b2⟩ := encInD_distQ o h2
  rw [← e] at b1 b2
  refine ⟨b1, b2, ?_⟩
  exact toUChar_of_floor _ _ (le_trans (insideCode_le o) (by norm_num)) b1 b2

theorem texelD_outside (bm : Bitmap) (x y : ℤ) (o : Option ℕ)
    (h : ¬ Inside bm ((x - FILTERWIDTH) * SAMPLING) ((y - FILTERWIDTH) * SAMPLING))
    (ho : Nearest bm ((x - FILTERWIDTH) * SAMPLING) ((y - FILTERWIDTH) * SAMPLING) o) :
    (outsideCode o : ℚ) ≤ texelD bm x y ∧ texelD bm x y < outsideCode o + 1 ∧
      texel bm x y = outsideCode o := by
  obtain ⟨h1, h2⟩ := scan_outside bm _ _ o h ho
  have e : texelD bm x y = encOutD (distQ o) := by
    unfold Inside at h
    unfold texelD
    simp only [ge_iff_le, h, if_false]
    rw [h1]
  obtain ⟨b1, b2⟩ := encOutD_distQ o h2
  rw [← e] at b1 b2
  refine ⟨b1, b2, ?_⟩
  exact toUChar_of_floor _ _ (outsideCode_le o) b1 b2

/-! ## From squared distances to real distances -/

theorem sqDist_cast (i j : ℤ) : ((sqDist i j : ℕ) : ℝ) = (i : ℝ) ^ 2 + (j : ℝ) ^ 2 := by
  have h : 0 ≤ i * i + j * j := add_nonneg (mul_self_nonneg i) (mul_self_nonneg j)
  have e : ((sqDist i j : ℕ) : ℤ) = i * i + j * j := Int.toNat_of_nonneg h
  have e' : ((sqDist i j : ℕ) : ℝ) = ((i * i + j * j : ℤ) : ℝ) := by
    rw [← e, Int.cast_natCast]
  rw [e']
  push_cast
  ring

theorem isMinDist_of_nearest_some (bm : Bitmap) (sx sy : ℤ) (n : ℕ)
    (h : Nearest bm sx sy (some n)) : IsMinDist bm sx sy (Real.sqrt n) := by
  obtain ⟨⟨i0, j0, hin, hop, hn⟩, hmin⟩ := h
  left
  constructor
  · exact ⟨i0, j0, hin, hop, by rw [← hn, sqDist_cast]⟩
  · rintro r ⟨i, j, hij, ho, rfl⟩
    rw [← sqDist_cast]
    exact Real.sqrt_le_sqrt (by exact_mod_cast hmin i j hij ho)

theorem isMinDist_of_nearest_none (bm : Bitmap) (sx sy : ℤ)
    (h : Nearest bm sx sy none) : IsMinDist bm sx sy 10000000000 :=
  Or.inr ⟨h, rfl⟩

theorem minDist_of_nearest_none (bm : Bitmap) (sx sy : ℤ) (d : ℝ)
    (h : Nearest bm sx sy none) (hd : IsMinDist bm sx sy d) : d = 10000000000 := by
  rcases hd with ⟨⟨i, j, hij, ho, -⟩, -⟩ | ⟨-, hd⟩
  · exact absurd ho (h i j hij)
  · exact hd

theorem minDist_of_nearest_some (bm : Bitmap) (sx sy : ℤ) (d : ℝ) (n : ℕ)
    (h : Nearest bm sx sy (some n)) (hd : IsMinDist bm sx sy d) : d = Real.sqrt n := by
  have h' := isMinDist_of_nearest_some bm sx sy n h
  obtain ⟨⟨i0, j0, hin, hop, -⟩, -⟩ := h
  rcases hd with hd | ⟨hno, -⟩
  · rcases h' with h' | ⟨hno, -⟩
    · exact hd.unique h'
    · exact absurd hop (hno i0 j0 hin)
  · exact absurd hop (hno i0 j0 hin)

/-- The clamped distance `min (d, 64)` is the nonnegative root of `clampedSq`. -/
theorem clamped_dist (bm : Bitmap) (sx sy : ℤ) (o : Option ℕ) (d : ℝ)
    (ho : Nearest bm sx sy o) (hd : IsMinDist bm sx sy d) :
    0 ≤ min d 64 ∧ (min d 64) ^ 2 = (clampedSq o : ℝ) := by
  cases o with
  | none =>
    rw [minDist_of_nearest_none bm sx sy d ho hd, clampedSq_none]
    rw [min_eq_right (by norm_num)]
    norm_num
  | some n =>
    rw [minDist_of_nearest_some bm sx sy d n ho hd, clampedSq_some]
    have h64 : Real.sqrt 4096 = 64 := by
      rw [show (4096 : ℝ) = 64 ^ 2 by norm_num]
      exact Real.sqrt_sq (by norm_num)
    by_cases hn : n ≤ 4096
    · have hle : Real.sqrt n ≤ 64 := by
        rw [← h64]
        exact Real.sqrt_le_sqrt (by exact_mod_cast hn)
      rw [min_eq_left hle, Nat.min_eq_left hn]
      exact ⟨Real.sqrt_nonneg _, Real.sq_sqrt (Nat.cast_nonneg n)⟩
    · have hle : 64 ≤ Real.sqrt n := by
        rw [← h64]
        exact Real.sqrt_le_sqrt (by exact_mod_cast (by omega : 4096 ≤ n))
      rw [min_eq_right hle, Nat.min_eq_right (by omega)]
      norm_num

theorem clamped_dist_mono (d1 d2 : ℝ) (k1 k2 : ℕ) (h1 : 0 ≤ min d1 64)
    (e1 : (min d1 64) ^ 2 = (k1 : ℝ)) (e2 : (min d2 64) ^ 2 = (k2 : ℝ))
    (h : min d1 64 ≤ min d2 64) : k1 ≤ k2 := by
  have : (k1 : ℝ) ≤ k2 := by
    rw [← e1, ← e2]
    exact pow_le_pow_left₀ h1 h 2
  exact_mod_cast this

/-! ## Integer form of the two encodings -/

theorem clampedSq_pos (o : Option ℕ) (h : ∀ n, o = some n → 1 ≤ n ∧ n < 2 ^ 14) :
    1 ≤ clampedSq o := by
  cases o with
  | none => rw [clampedSq_none]; norm_num
  | some n =>
    rw [clampedSq_some]
    have := (h n rfl).1
    omega

theorem insideCode_spec (o : Option ℕ) (hk : 1 ≤ clampedSq o) :
    ∃ s, insideCode o = 127 - s ∧ s ≤ 127 ∧ 1 ≤ s ∧ s * s < 4 * clampedSq o ∧
      4 * clampedSq o ≤ (s + 1) * (s + 1) := by
  have hle := clampedSq_le o
  refine ⟨Nat.sqrt (4 * clampedSq o - 1), by rw [insideCode], ?_, ?_, ?_, ?_⟩
  · have : Nat.sqrt (4 * clampedSq o - 1) < 128 := Nat.sqrt_lt'.mpr (by omega)
    omega
  · exact Nat.le_sqrt'.mpr (by omega)
  · have := Nat.sqrt_le (4 * clampedSq o - 1)
    omega
  · have : 4 * clampedSq o - 1 < (Nat.sqrt (4 * clampedSq o - 1) + 1) *
        (Nat.sqrt (4 * clampedSq o - 1) + 1) := Nat.lt_succ_sqrt _
    omega

theorem outsideCode_spec (o : Option ℕ) (hk : 1 ≤ clampedSq o) :
    ∃ s, outsideCode o = 127 + s ∧ s ≤ 128 ∧ 2 ≤ s ∧ s * s ≤ 4 * clampedSq o ∧
      4 * clampedSq o < (s + 1) * (s + 1) := by
  have hle := clampedSq_le o
  refine ⟨Nat.sqrt (4 * clampedSq o), by rw [outsideCode], ?_, ?_, ?_, ?_⟩
  · have : Nat.sqrt (4 * clampedSq o) < 129 := Nat.sqrt_lt'.mpr (by omega)
    omega
  · exact Nat.le_sqrt'.mpr (by omega)
  · exact Nat.sqrt_le (4 * clampedSq o)
  · exact Nat.lt_succ_sqrt (4 * clampedSq o)

theorem lt_two_mul_root (m : ℝ) (k s : ℕ) (h0 : 0 ≤ m) (e : m ^ 2 = (k : ℝ))
    (h : s * s < 4 * k) : (s : ℝ) < 2 * m := by
  have h' : (s : ℝ) * s < 4 * k := by exact_mod_cast h
  by_contra hc
  push_neg at hc
  nlinarith

theorem le_two_mul_root (m : ℝ) (k s : ℕ) (h0 : 0 ≤ m) (e : m ^ 2 = (k : ℝ))
    (h : s * s ≤ 4 * k) : (s : ℝ) ≤ 2 * m := by
  have h' : (s : ℝ) * s ≤ 4 * k := by exact_mod_cast h
  by_contra hc
  push_neg at hc
  nlinarith

theorem two_mul_root_le (m : ℝ) (k s : ℕ) (e : m ^ 2 = (k : ℝ))
    (h : 4 * k ≤ s * s) : 2 * m ≤ (s : ℝ) := by
  have h' : 4 * (k : ℝ) ≤ (s : ℝ) * s := by exact_mod_cast h
  have hs : (0 : ℝ) ≤ s := Nat.cast_nonneg s
  by_contra hc
  push_neg at hc
  nlinarith

theorem two_mul_root_lt (m : ℝ) (k s : ℕ) (e : m ^ 2 = (k : ℝ))
    (h : 4 * k < s * s) : 2 * m < (s : ℝ) := by
  have h' : 4 * (k : ℝ) < (s : ℝ) * s := by exact_mod_cast h
  have hs : (0 : ℝ) ≤ s := Nat.cast_nonneg s
  by_contra hc
  push_neg at hc
  nlinarith

/-! ## The stored texel in terms of the clamped distance -/

theorem texel_inside_summary (bm : Bitmap) (x y : ℤ) (d : ℝ)
    (hin : 128 ≤ S bm ((x - FILTERWIDTH) * SAMPLING) ((y - FILTERWIDTH) * SAMPLING))
    (hd : IsMinDist bm ((x - FILTERWIDTH) * SAMPLING) ((y - FILTERWIDTH) * SAMPLING) d) :
    ∃ s k : ℕ, texel bm x y = 127 - s ∧ s ≤ 127 ∧ 1 ≤ s ∧ s * s < 4 * k ∧
      4 * k ≤ (s + 1) * (s + 1) ∧ 1 ≤ k ∧ k ≤ 4096 ∧
      0 ≤ min d 64 ∧ (min d 64) ^ 2 = (k : ℝ) := by
  obtain ⟨o, ho, hv⟩ := exists_nearest bm ((x - FILTERWIDTH) * SAMPLING)
    ((y - FILTERWIDTH) * SAMPLING)
  obtain ⟨-, -, ht⟩ := texelD_inside bm x y o hin ho
  obtain ⟨s, e, h1, h2, h3, h4⟩ := insideCode_spec o (clampedSq_pos o hv)
  obtain ⟨m0, m1⟩ := clamped_dist bm _ _ o d ho hd
  exact ⟨s, clampedSq o, by rw [ht, e], h1, h2, h3, h4, clampedSq_pos o hv, clampedSq_le o,
    m0, m1⟩

theorem texel_outside_summary (bm : Bitmap) (x y : ℤ) (d : ℝ)
    (hout : S bm ((x - FILTERWIDTH) * SAMPLING) ((y - FILTERWIDTH) * SAMPLING) < 128)
    (hd : IsMinDist bm ((x - FILTERWIDTH) * SAMPLING) ((y - FILTERWIDTH) * SAMPLING) d) :
    ∃ s k : ℕ, texel bm x y = 127 + s ∧ s ≤ 128 ∧ 2 ≤ s ∧ s * s ≤ 4 * k ∧
      4 * k < (s + 1) * (s + 1) ∧ 1 ≤ k ∧ k ≤ 4096 ∧
      0 ≤ min d 64 ∧ (min d 64) ^ 2 = (k : ℝ) := by
  obtain ⟨o, ho, hv⟩ := exists_nearest bm ((x - FILTERWIDTH) * SAMPLING)
    ((y - FILTERWIDTH) * SAMPLING)
  have hni : ¬ Inside bm ((x - FILTERWIDTH) * SAMPLING) ((y - FILTERWIDTH) * SAMPLING) := by
    unfold Inside; omega
  obtain ⟨-, -, ht⟩ := texelD_outside bm x y o hni ho
  obtain ⟨s, e, h1, h2, h3, h4⟩ := outsideCode_spec o (clampedSq_pos o hv)
  obtain ⟨m0, m1⟩ := clamped_dist bm _ _ o d ho hd
  exact ⟨s, clampedSq o, by rw [ht, e], h1, h2, h3, h4, clampedSq_pos o hv, clampedSq_le o,
    m0, m1⟩

/-- Every texel has a minimum distance in the sense of `IsMinDist`. -/
theorem exists_minDist (bm : Bitmap) (sx sy : ℤ) : ∃ d, IsMinDist bm sx sy d := by
  obtain ⟨o, ho, -⟩ := exists_nearest bm sx sy
  cases o with
  | none => exact ⟨_, isMinDist_of_nearest_none bm sx sy ho⟩
  | some n => exact ⟨_, isMinDist_of_nearest_some bm sx sy n ho⟩

theorem texel_inside_le (bm : Bitmap) (x y : ℤ)
    (hin : 128 ≤ S bm ((x - FILTERWIDTH) * SAMPLING) ((y - FILTERWIDTH) * SAMPLING)) :
    texel bm x y ≤ 126 := by
  obtain ⟨d, hd⟩ := exists_minDist bm ((x - FILTERWIDTH) * SAMPLING)
    ((y - FILTERWIDTH) * SAMPLING)
  obtain ⟨s, k, e, h1, h2, -⟩ := texel_inside_summary bm x y d hin hd
  omega

theorem texel_outside_ge (bm : Bitmap) (x y : ℤ)
    (hout : S bm ((x - FILTERWIDTH) * SAMPLING) ((y - FILTERWIDTH) * SAMPLING) < 128) :
    129 ≤ texel bm x y ∧ texel bm x y ≤ 255 := by
  obtain ⟨d, hd⟩ := exists_minDist bm ((x - FILTERWIDTH) * SAMPLING)
    ((y - FILTERWIDTH) * SAMPLING)
  obtain ⟨s, k, e, h1, h2, -⟩ := texel_outside_summary bm x y d hout hd
  omega

theorem nat_lt_of_mul_self_lt (s b : ℕ) (h : s * s < b * b) : s < b := by
  by_contra hc
  push_neg at hc
  have := Nat.mul_le_mul hc hc
  omega

theorem texel_inside_formula (bm : Bitmap) (x y : ℤ) (d : ℝ)
    (hin : 128 ≤ S bm ((x - FILTERWIDTH) * SAMPLING) ((y - FILTERWIDTH) * SAMPLING))
    (hd : IsMinDist bm ((x - FILTERWIDTH) * SAMPLING) ((y - FILTERWIDTH) * SAMPLING) d) :
    IsTruncation (texel bm x y : ℤ) (128 - min d 64 * 128 / 64) := by
  obtain ⟨s, k, e, h1, h2, h3, h4, h5, h6, m0, m1⟩ := texel_inside_summary bm x y d hin hd
  have a := lt_two_mul_root (min d 64) k s m0 m1 h3
  have b := two_mul_root_le (min d 64) k (s + 1) m1 h4
  have hs : (s : ℝ) ≤ 127 := by exact_mod_cast h1
  have ht : ((texel bm x y : ℤ) : ℝ) = 127 - (s : ℝ) := by
    rw [e]
    push_cast [Nat.cast_sub h1]
    ring
  left
  rw [ht]
  push_cast at b
  refine ⟨?_, ?_, ?_⟩ <;> linarith

theorem texel_outside_formula (bm : Bitmap) (x y : ℤ) (d : ℝ)
    (hout : S bm ((x - FILTERWIDTH) * SAMPLING) ((y - FILTERWIDTH) * SAMPLING) < 128)
    (hd : IsMinDist bm ((x - FILTERWIDTH) * SAMPLING) ((y - FILTERWIDTH) * SAMPLING) d) :
    IsTruncation (texel bm x y : ℤ) (127 + min d 64 * 128 / 64) := by
  obtain ⟨s, k, e, h1, h2, h3, h4, h5, h6, m0, m1⟩ := texel_outside_summary bm x y d hout hd
  have a := le_two_mul_root (min d 64) k s m0 m1 h3
  have b := two_mul_root_lt (min d 64) k (s + 1) m1 h4
  have ht : ((texel bm x y : ℤ) : ℝ) = 127 + (s : ℝ) := by
    rw [e]
    push_cast
    ring
  left
  rw [ht]
  push_cast at b
  refine ⟨?_, ?_, ?_⟩ <;> linarith

/-! ## Facts about the sample bitmaps -/

theorem inWindow_iff (i j : ℤ) : InWindow i j ↔ -64 ≤ i ∧ i ≤ 64 ∧ -64 ≤ j ∧ j ≤ 64 := by
  unfold InWindow
  norm_num [FILTERWIDTH, SAMPLING]

theorem not_opposite_self (bm : Bitmap) (sx sy : ℤ) : ¬ Opposite bm sx sy 0 0 := by
  unfold Opposite
  simp only [add_zero]
  omega

/-- An opposite pixel at squared distance 1 is a nearest one. -/
theorem nearest_one (bm : Bitmap) (sx sy i j : ℤ) (hw : InWindow i j)
    (ho : Opposite bm sx sy i j) (h1 : sqDist i j = 1) : Nearest bm sx sy (some 1) := by
  refine ⟨⟨i, j, hw, ho, h1⟩, ?_⟩
  intro i' j' _ ho'
  apply sqDist_pos
  rintro ⟨rfl, rfl⟩
  exact not_opposite_self bm sx sy ho'

theorem S_blank (x y : ℤ) : S blankBitmap x y = 0 := by
  unfold S blankBitmap
  split_ifs <;> rfl

theorem nearest_blank (sx sy : ℤ) : Nearest blankBitmap sx sy none := by
  intro i j _ ho
  unfold Opposite at ho
  rw [S_blank, S_blank] at ho
  omega

theorem S_dot_origin : S dotBitmap 0 0 = 255 := by
  unfold S dotBitmap
  simp
  rfl

theorem S_dot_right : S dotBitmap 1 0 = 0 := by
  unfold S dotBitmap
  simp

theorem nearest_dot : Nearest dotBitmap 0 0 (some 1) := by
  apply nearest_one dotBitmap 0 0 1 0
  · rw [inWindow_iff]; norm_num
  · unfold Opposite
    rw [S_dot_origin]
    simp only [zero_add, add_zero]
    rw [S_dot_right]
    norm_num
  · unfold sqDist; norm_num

theorem S_step_origin : S stepBitmap 0 0 = 0 := by
  unfold S stepBitmap
  simp

theorem S_step_right : S stepBitmap 1 0 = 255 := by
  unfold S stepBitmap
  simp
  rfl

theorem nearest_step : Nearest stepBitmap 0 0 (some 1) := by
  apply nearest_one stepBitmap 0 0 1 0
  · rw [inWindow_iff]; norm_num
  · unfold Opposite
    rw [S_step_origin]
    simp only [zero_add, add_zero]
    rw [S_step_right]
    norm_num
  · unfold sqDist; norm_num

theorem S_hole (x y : ℤ) (hx0 : 0 ≤ x) (hx1 : x ≤ 128) (hy0 : 0 ≤ y) (hy1 : y ≤ 128) :
    S holeBitmap x y = if x = 127 ∧ y = 72 then 0 else 255 := by
  unfold S holeBitmap
  simp only
  rw [if_neg (by omega)]
  by_cases h : x = 127 ∧ y = 72
  · obtain ⟨rfl, rfl⟩ := h
    simp
  · rw [if_neg h, if_neg (by omega)]
    rfl

theorem nearest_hole : Nearest holeBitmap 64 64 (some 4033) := by
  have hc : S holeBitmap 64 64 = 255 := by
    rw [S_hole 64 64 (by norm_num) (by norm_num) (by norm_num) (by norm_num)]
    norm_num
  refine ⟨⟨63, 8, ?_, ?_, ?_⟩, ?_⟩
  · rw [inWindow_iff]; norm_num
  · unfold Opposite
    rw [hc, S_hole _ _ (by norm_num) (by norm_num) (by norm_num) (by norm_num)]
    norm_num
  · rfl
  · intro i j hw ho
    rw [inWindow_iff] at hw
    unfold Opposite at ho
    rw [hc, S_hole _ _ (by omega) (by omega) (by omega) (by omega)] at ho
    by_cases h : 64 + i = 127 ∧ 64 + j = 72
    · have hi : i = 63 := by omega
      have hj : j = 8 := by omega
      subst hi hj
      rfl
    · rw [if_neg h] at ho
      norm_num at ho

theorem S_corner (x y : ℤ) (hx0 : 0 ≤ x) (hx1 : x ≤ 128) (hy0 : 0 ≤ y) (hy1 : y ≤ 128) :
    S cornerBitmap x y = if x = 128 ∧ y = 128 then 0 else 255 := by
  unfold S cornerBitmap
  simp only
  rw [if_neg (by omega)]
  by_cases h : x = 128 ∧ y = 128
  · obtain ⟨rfl, rfl⟩ := h
    simp
  · rw [if_neg h, if_neg (by omega)]
    rfl

theorem nearest_corner : Nearest cornerBitmap 64 64 (some 8192) := by
  have hc : S cornerBitmap 64 64 = 255 := by
    rw [S_corner 64 64 (by norm_num) (by norm_num) (by norm_num) (by norm_num)]
    norm_num
  refine ⟨⟨64, 64, ?_, ?_, ?_⟩, ?_⟩
  · rw [inWindow_iff]; norm_num
  · unfold Opposite
    rw [hc, S_corner _ _ (by norm_num) (by norm_num) (by norm_num) (by norm_num)]
    norm_num
  · rfl
  · intro i j hw ho
    rw [inWindow_iff] at hw
    unfold Opposite at ho
    rw [hc, S_corner _ _ (by omega) (by omega) (by omega) (by omega)] at ho
    by_cases h : 64 + i = 128 ∧ 64 + j = 128
    · have hi : i = 64 := by omega
      have hj : j = 64 := by omega
      subst hi hj
      rfl
    · rw [if_neg h] at ho
      norm_num at ho

theorem S_solid (x y : ℤ) (hx0 : 0 ≤ x) (hx1 : x ≤ 128) (hy0 : 0 ≤ y) (hy1 : y ≤ 128) :
    S solidBitmap x y = 255 := by
  unfold S solidBitmap
  simp only
  rw [if_neg (by omega)]
  rfl

theorem nearest_solid : Nearest solidBitmap 64 64 none := by
  intro i j hw ho
  rw [inWindow_iff] at hw
  unfold Opposite at ho
  rw [S_solid _ _ (by norm_num) (by norm_num) (by norm_num) (by norm_num),
    S_solid _ _ (by omega) (by omega) (by omega) (by omega)] at ho
  norm_num at ho

theorem center_eq : ((16 : ℤ) - FILTERWIDTH) * SAMPLING = 64 := by
  norm_num [FILTERWIDTH, SAMPLING]

theorem origin_eq : ((8 : ℤ) - FILTERWIDTH) * SAMPLING = 0 := by
  norm_num [FILTERWIDTH, SAMPLING]

/-! ## The size computation -/

theorem ldiff_three (m : ℕ) : Nat.ldiff m 3 = 4 * (m / 4) := by
  apply Nat.eq_of_testBit_eq
  intro i
  rw [Nat.testBit_ldiff, show (3 : ℕ) = 2 ^ 2 - 1 by norm_num, Nat.testBit_two_pow_sub_one,
    show (4 : ℕ) = 2 ^ 2 by norm_num, Nat.testBit_mul_pow_two, ← Nat.shiftRight_eq_div_pow,
    Nat.testBit_shiftRight]
  by_cases h : i < 2
  · simp [h]
  · have e : 2 + (i - 2) = i := by omega
    simp [h, e]
    intro _
    omega

theorem andNot3_of_nonneg (w : ℤ) (h : 0 ≤ w) : andNot3 w = 4 * (w / 4) := by
  obtain ⟨m, rfl⟩ := Int.eq_ofNat_of_zero_le h
  have e : andNot3 (m : ℤ) = ((Nat.ldiff m 3 : ℕ) : ℤ) := rfl
  rw [e, ldiff_three]
  push_cast
  rfl

theorem wrapInt_of_range (z : ℤ) (h0 : -2147483648 ≤ z) (h1 : z ≤ 2147483647) :
    wrapInt z = z := by
  unfold wrapInt
  omega

theorem paddedSize_eq (n : ℤ) (h0 : 0 ≤ n) (h1 : n + (SAMPLING - 1) ≤ INT_MAX) :
    paddedSize n = (n + 7) / 8 + 16 := by
  simp only [SAMPLING, INT_MAX] at h1
  have w1 : wrapInt (wrapInt (n + SAMPLING) - 1) = n + 7 := by
    unfold wrapInt
    simp only [SAMPLING]
    omega
  unfold paddedSize
  rw [w1]
  have hd : Int.tdiv (n + 7) SAMPLING = (n + 7) / 8 := by
    simp only [SAMPLING]
    rw [Int.tdiv_eq_ediv (by omega) (by norm_num)]
  rw [hd]
  simp only [FILTERWIDTH]
  apply wrapInt_of_range <;> omega

theorem ceil_div_eight (n : ℤ) : ⌈(n : ℚ) / 8⌉ = (n + 7) / 8 := by
  rw [Int.ceil_eq_iff]
  have h1 : 8 * ((n + 7) / 8) ≤ n + 7 := Int.mul_ediv_self_le (by norm_num)
  have h2 : n + 7 < 8 * ((n + 7) / 8) + 8 := Int.lt_mul_ediv_self_add (by norm_num)
  have h1' : (8 : ℚ) * (((n + 7) / 8 : ℤ) : ℚ) ≤ n + 7 := by exact_mod_cast h1
  have h2' : (n : ℚ) + 7 < 8 * (((n + 7) / 8 : ℤ) : ℚ) + 8 := by exact_mod_cast h2
  constructor
  · have h3 : 8 * ((n + 7) / 8) - 8 < n := by omega
    have h3' : (8 : ℚ) * (((n + 7) / 8 : ℤ) : ℚ) - 8 < n := by exact_mod_cast h3
    linarith
  · have h4 : n ≤ 8 * ((n + 7) / 8) := by omega
    have h4' : (n : ℚ) ≤ 8 * (((n + 7) / 8 : ℤ) : ℚ) := by exact_mod_cast h4
    linarith

theorem texWidth_eq (n : ℤ) (h0 : 0 ≤ n) (h1 : n + (SAMPLING - 1) ≤ INT_MAX) :
    texWidth n = 4 * (((n + 7) / 8 + 16 + 3) / 4) := by
  unfold texWidth
  rw [paddedSize_eq n h0 h1]
  simp only [SAMPLING, INT_MAX] at h1
  rw [wrapInt_of_range _ (by omega) (by omega)]
  exact andNot3_of_nonneg _ (by omega)

/-! ## The disc-shaped window -/

theorem disc_iff (i j : ℤ) (b : Bool) :
    (decide (i * i + j * j < (FILTERWIDTH * SAMPLING) * (FILTERWIDTH * SAMPLING)) && b) = true ↔
      sqDist i j < 4096 ∧ b = true := by
  have h : 0 ≤ i * i + j * j := add_nonneg (mul_self_nonneg i) (mul_self_nonneg j)
  simp only [Bool.and_eq_true, decide_eq_true_eq, FILTERWIDTH, SAMPLING, sqDist]
  constructor
  · rintro ⟨h1, h2⟩
    exact ⟨by omega, h2⟩
  · rintro ⟨h1, h2⟩
    exact ⟨by omega, h2⟩

theorem scanDisc_cases (opp : ℕ → Bool) (bm : Bitmap) (sx sy : ℤ)
    (hc : opp (S bm sx sy) = false) :
    (scanDisc opp bm sx sy = 10000000000 ∧
      ∀ i j, InWindow i j → ¬ (sqDist i j < 4096 ∧ opp (S bm (sx + i) (sy + j)) = true)) ∨
    (∃ i0 j0, InWindow i0 j0 ∧ sqDist i0 j0 < 4096 ∧ opp (S bm (sx + i0) (sy + j0)) = true ∧
      (∀ i j, InWindow i j → sqDist i j < 4096 → opp (S bm (sx + i) (sy + j)) = true →
        sqDist i0 j0 ≤ sqDist i j) ∧
      scanDisc opp bm sx sy = fsqrt (sqDist i0 j0)) := by
  have key := window_fold_cases
    (fun i j => decide (i * i + j * j < (FILTERWIDTH * SAMPLING) * (FILTERWIDTH * SAMPLING))
      && opp (S bm (sx + i) (sy + j))) (by simp [hc])
  simp only at key
  rcases key with ⟨h1, h2⟩ | ⟨i0, j0, hw, hp, hmin, -, hval⟩
  · left
    refine ⟨h1, ?_⟩
    intro i j hij hh
    have := h2 i j hij
    rw [(disc_iff i j _).mpr hh] at this
    exact Bool.noConfusion this
  · right
    obtain ⟨a, b⟩ := (disc_iff i0 j0 _).mp hp
    refine ⟨i0, j0, hw, a, b, ?_, hval⟩
    intro i j hij h1 h2
    exact hmin i j hij ((disc_iff i j _).mpr ⟨h1, h2⟩)

theorem MIN_of_ge (c : ℚ) (h : 64 ≤ c) : MIN c 64 = 64 := if_neg (not_lt.mpr h)

/-- Restricting the search to the disc does not change the clamped distance. -/
theorem scanDisc_MIN (opp : ℕ → Bool) (bm : Bitmap) (sx sy : ℤ)
    (hc : opp (S bm sx sy) = false) :
    MIN (scanDisc opp bm sx sy) 64 = MIN (scan opp bm sx sy) 64 := by
  rcases scanDisc_cases opp bm sx sy hc with ⟨d1, d2⟩ | ⟨i0, j0, hw0, hlt0, hp0, hmin0, hval0⟩
  · rcases scan_cases opp bm sx sy hc with ⟨s1, -⟩ | ⟨i1, j1, hw1, hp1, -, hpos1, hval1⟩
    · rw [d1, s1]
    · have hge : 4096 ≤ sqDist i1 j1 := by
        by_contra hcon
        exact d2 i1 j1 hw1 ⟨by omega, hp1⟩
      rw [d1, hval1, MIN_of_ge _ (by norm_num),
        MIN_of_ge _ (fsqrt_ge_64 _ hge (sqDist_lt i1 j1 hw1))]
  · rcases scan_cases opp bm sx sy hc with ⟨-, s2⟩ | ⟨i1, j1, hw1, hp1, hmin1, hpos1, hval1⟩
    · have := s2 i0 j0 hw0
      rw [hp0] at this
      exact Bool.noConfusion this
    · have a := hmin1 i0 j0 hw0 hp0
      have b := hmin0 i1 j1 hw1 (by omega) hp1
      rw [hval0, hval1, Nat.le_antisymm a b]

theorem encInD_congr (c c' : ℚ) (h : MIN c 64 = MIN c' 64) : encInD c = encInD c' := by
  rw [encInD_eq, encInD_eq, h]

theorem encOutD_congr (c c' : ℚ) (h : MIN c 64 = MIN c' 64) : encOutD c = encOutD c' := by
  rw [encOutD_eq, encOutD_eq, h]

theorem texelDisc_eq (bm : Bitmap) (x y : ℤ) : texelDisc bm x y = texel bm x y := by
  unfold texelDisc texel texelD
  simp only
  split_ifs with h
  · rw [encInD_congr _ _ (scanDisc_MIN _ bm _ _ (by simp; omega))]
  · rw [encOutD_congr _ _ (scanDisc_MIN _ bm _ _ (by simp; omega))]

/-- The stored byte when every opposite pixel of the window is at distance `R` or more. -/
theorem texel_of_far (bm : Bitmap) (x y : ℤ)
    (h : ∀ i j, InWindow i j →
      Opposite bm ((x - FILTERWIDTH) * SAMPLING) ((y - FILTERWIDTH) * SAMPLING) i j →
      4096 ≤ sqDist i j) :
    texel bm x y =
      if 128 ≤ S bm ((x - FILTERWIDTH) * SAMPLING) ((y - FILTERWIDTH) * SAMPLING)
      then 0 else 255 := by
  obtain ⟨o, ho, hv⟩ := exists_nearest bm ((x - FILTERWIDTH) * SAMPLING)
    ((y - FILTERWIDTH) * SAMPLING)
  have hk : clampedSq o = 4096 := by
    cases o with
    | none => rfl
    | some n =>
      obtain ⟨⟨i, j, hij, hop, hn⟩, -⟩ := ho
      have := h i j hij hop
      rw [clampedSq_some]
      omega
  split_ifs with hin
  · rw [(texelD_inside bm x y o hin ho).2.2, insideCode_far o hk]
  · rw [(texelD_outside bm x y o hin ho).2.2, outsideCode_far o hk]

/-! ## Ranges of the stored byte -/

theorem root_mono_lt (s1 s2 a b : ℕ) (h1 : s1 * s1 < a) (hab : a ≤ b)
    (h2 : b ≤ (s2 + 1) * (s2 + 1)) : s1 ≤ s2 := by
  by_contra hc
  push_neg at hc
  have := Nat.mul_le_mul (show s2 + 1 ≤ s1 by omega) (show s2 + 1 ≤ s1 by omega)
  omega

theorem root_mono_le (s1 s2 a b : ℕ) (h1 : s1 * s1 ≤ a) (hab : a ≤ b)
    (h2 : b < (s2 + 1) * (s2 + 1)) : s1 ≤ s2 := by
  by_contra hc
  push_neg at hc
  have := Nat.mul_le_mul (show s2 + 1 ≤ s1 by omega) (show s2 + 1 ≤ s1 by omega)
  omega

theorem inside_range (bm : Bitmap) (x y : ℤ) (d : ℝ)
    (hin : 128 ≤ S bm ((x - FILTERWIDTH) * SAMPLING) ((y - FILTERWIDTH) * SAMPLING))
    (hd : IsMinDist bm ((x - FILTERWIDTH) * SAMPLING) ((y - FILTERWIDTH) * SAMPLING) d) :
    texel bm x y ≤ 126 ∧ (d ≤ 127 / 2 → 0 < texel bm x y) ∧
      (127 / 2 < d → texel bm x y = 0) := by
  obtain ⟨s, k, e, h1, h2, h3, h4, h5, h6, m0, m1⟩ := texel_inside_summary bm x y d hin hd
  refine ⟨by omega, ?_, ?_⟩
  · intro hle
    have hm : min d 64 ≤ 127 / 2 := le_trans (min_le_left _ _) hle
    have hk : (k : ℝ) ≤ 4032.25 := by
      rw [← m1]
      have := pow_le_pow_left₀ m0 hm 2
      norm_num at this ⊢
      exact this
    have hk' : k ≤ 4032 := by
      by_contra hc
      push_neg at hc
      have : (4033 : ℝ) ≤ k := by exact_mod_cast hc
      norm_num at hk
      linarith
    have hs : s ≤ 126 := root_mono_lt s 126 (4 * k) 16129 h3 (by omega) (by norm_num)
    omega
  · intro hlt
    have hm : 127 / 2 < min d 64 := lt_min hlt (by norm_num)
    have hk : (4032.25 : ℝ) < k := by
      rw [← m1]
      have := pow_lt_pow_left₀ hm (by norm_num) (two_ne_zero)
      norm_num at this ⊢
      exact this
    have hk' : 4033 ≤ k := by
      by_contra hc
      push_neg at hc
      have : (k : ℝ) ≤ 4032 := by exact_mod_cast (by omega : k ≤ 4032)
      norm_num at hk
      linarith
    have hs : 127 ≤ s := root_mono_lt 127 s 16130 (4 * k) (by norm_num) (by omega) h4
    omega

theorem outside_range (bm : Bitmap) (x y : ℤ) (d : ℝ)
    (hout : S bm ((x - FILTERWIDTH) * SAMPLING) ((y - FILTERWIDTH) * SAMPLING) < 128)
    (hd : IsMinDist bm ((x - FILTERWIDTH) * SAMPLING) ((y - FILTERWIDTH) * SAMPLING) d) :
    (d < 64 → 128 ≤ texel bm x y ∧ texel bm x y < 255) ∧ (64 ≤ d → texel bm x y = 255) := by
  obtain ⟨s, k, e, h1, h2, h3, h4, h5, h6, m0, m1⟩ := texel_outside_summary bm x y d hout hd
  constructor
  · intro hlt
    have hm : min d 64 < 64 := lt_of_le_of_lt (min_le_left _ _) hlt
    have hk : (k : ℝ) < 4096 := by
      rw [← m1]
      have := pow_lt_pow_left₀ hm m0 (two_ne_zero)
      norm_num at this ⊢
      exact this
    have hk' : k < 4096 := by exact_mod_cast hk
    have hs : s ≤ 127 := root_mono_le s 127 (4 * k) 16383 h3 (by omega) (by norm_num)
    omega
  · intro hge
    have hm : min d 64 = 64 := min_eq_right hge
    have hk : (k : ℝ) = 4096 := by
      rw [← m1, hm]
      norm_num
    have hk' : k = 4096 := by exact_mod_cast hk
    have hs : 128 < s + 1 := nat_lt_of_mul_self_lt 128 (s + 1) (by omega)
    omega

theorem code_mono (bm1 : Bitmap) (x1 y1 : ℤ) (bm2 : Bitmap) (x2 y2 : ℤ) (d1 d2 : ℝ)
    (hd1 : IsMinDist bm1 ((x1 - FILTERWIDTH) * SAMPLING) ((y1 - FILTERWIDTH) * SAMPLING) d1)
    (hd2 : IsMinDist bm2 ((x2 - FILTERWIDTH) * SAMPLING) ((y2 - FILTERWIDTH) * SAMPLING) d2)
    (h : min d1 64 ≤ min d2 64) :
    (128 ≤ S bm1 ((x1 - FILTERWIDTH) * SAMPLING) ((y1 - FILTERWIDTH) * SAMPLING) →
      128 ≤ S bm2 ((x2 - FILTERWIDTH) * SAMPLING) ((y2 - FILTERWIDTH) * SAMPLING) →
      texel bm2 x2 y2 ≤ texel bm1 x1 y1) ∧
    (S bm1 ((x1 - FILTERWIDTH) * SAMPLING) ((y1 - FILTERWIDTH) * SAMPLING) < 128 →
      S bm2 ((x2 - FILTERWIDTH) * SAMPLING) ((y2 - FILTERWIDTH) * SAMPLING) < 128 →
      texel bm1 x1 y1 ≤ texel bm2 x2 y2) := by
  constructor
  · intro hin1 hin2
    obtain ⟨s1, k1, e1, a1, a2, a3, a4, a5, a6, m0, m1⟩ :=
      texel_inside_summary bm1 x1 y1 d1 hin1 hd1
    obtain ⟨s2, k2, e2, b1, b2, b3, b4, b5, b6, n0, n1⟩ :=
      texel_inside_summary bm2 x2 y2 d2 hin2 hd2
    have hk := clamped_dist_mono d1 d2 k1 k2 m0 m1 n1 h
    have := root_mono_lt s1 s2 (4 * k1) (4 * k2) a3 (by omega) b4
    omega
  · intro hout1 hout2
    obtain ⟨s1, k1, e1, a1, a2, a3, a4, a5, a6, m0, m1⟩ :=
      texel_outside_summary bm1 x1 y1 d1 hout1 hd1
    obtain ⟨s2, k2, e2, b1, b2, b3, b4, b5, b6, n0, n1⟩ :=
      texel_outside_summary bm2 x2 y2 d2 hout2 hd2
    have hk := clamped_dist_mono d1 d2 k1 k2 m0 m1 n1 h
    have := root_mono_le s1 s2 (4 * k1) (4 * k2) a3 (by omega) b4
    omega

theorem texel_adjacent (bm : Bitmap) (x y i j : ℤ)
    (hadj : (i = 1 ∧ j = 0) ∨ (i = -1 ∧ j = 0) ∨ (i = 0 ∧ j = 1) ∨ (i = 0 ∧ j = -1))
    (hopp : Opposite bm ((x - FILTERWIDTH) * SAMPLING) ((y - FILTERWIDTH) * SAMPLING) i j) :
    (128 ≤ S bm ((x - FILTERWIDTH) * SAMPLING) ((y - FILTERWIDTH) * SAMPLING) →
      texel bm x y = 126) ∧
    (S bm ((x - FILTERWIDTH) * SAMPLING) ((y - FILTERWIDTH) * SAMPLING) < 128 →
      texel bm x y = 129) := by
  have hw : InWindow i j := by
    rw [inWindow_iff]
    rcases hadj with ⟨rfl, rfl⟩ | ⟨rfl, rfl⟩ | ⟨rfl, rfl⟩ | ⟨rfl, rfl⟩ <;> norm_num
  have h1 : sqDist i j = 1 := by
    rcases hadj with ⟨rfl, rfl⟩ | ⟨rfl, rfl⟩ | ⟨rfl, rfl⟩ | ⟨rfl, rfl⟩ <;> rfl
  have hn := nearest_one bm _ _ i j hw hopp h1
  have hk : clampedSq (some 1) = 1 := rfl
  constructor
  · intro hin
    obtain ⟨s, e, a1, a2, a3, a4⟩ := insideCode_spec (some 1) (by rw [hk])
    rw [hk] at a3 a4
    have hs : s ≤ 1 := root_mono_lt s 1 4 4 a3 (le_refl _) (by norm_num)
    rw [(texelD_inside bm x y _ hin hn).2.2, e]
    omega
  · intro hout
    obtain ⟨s, e, a1, a2, a3, a4⟩ := outsideCode_spec (some 1) (by rw [hk])
    rw [hk] at a3 a4
    have hs : s ≤ 2 := root_mono_le s 2 4 4 a3 (le_refl _) (by norm_num)
    have hni : ¬ Inside bm ((x - FILTERWIDTH) * SAMPLING) ((y - FILTERWIDTH) * SAMPLING) := by
      unfold Inside; omega
    rw [(texelD_outside bm x y _ hni hn).2.2, e]
    omega

theorem S_lt_of_blank (bm : Bitmap) (h : ∀ k, (bm.data k).val < 128) (x y : ℤ) :
    S bm x y < 128 := by
  unfold S
  split_ifs
  · norm_num
  · exact h _

theorem nearest_of_blank (bm : Bitmap) (h : ∀ k, (bm.data k).val < 128) (sx sy : ℤ) :
    Nearest bm sx sy none := by
  intro i j _ ho
  unfold Opposite at ho
  have a := S_lt_of_blank bm h sx sy
  have b := S_lt_of_blank bm h (sx + i) (sy + j)
  omega

theorem blank_texel (bm : Bitmap) (h : ∀ k, (bm.data k).val < 128) (x y : ℤ) :
    texel bm x y = 255 ∧
    scan (fun v => decide (v ≥ 128)) bm ((x - FILTERWIDTH) * SAMPLING)
      ((y - FILTERWIDTH) * SAMPLING) = 10000000000 ∧
    MIN (scan (fun v => decide (v ≥ 128)) bm ((x - FILTERWIDTH) * SAMPLING)
      ((y - FILTERWIDTH) * SAMPLING)) 64 = 64 ∧
    texelD bm x y = 255 := by
  have hn := nearest_of_blank bm h ((x - FILTERWIDTH) * SAMPLING) ((y - FILTERWIDTH) * SAMPLING)
  have hout := S_lt_of_blank bm h ((x - FILTERWIDTH) * SAMPLING) ((y - FILTERWIDTH) * SAMPLING)
  have hni : ¬ Inside bm ((x - FILTERWIDTH) * SAMPLING) ((y - FILTERWIDTH) * SAMPLING) := by
    unfold Inside; omega
  have hs := (scan_outside bm _ _ none hni hn).1
  rw [distQ] at hs
  refine ⟨?_, hs, ?_, ?_⟩
  · rw [(texelD_outside bm x y none hni hn).2.2, outsideCode_far none clampedSq_none]
  · rw [hs]; exact MIN_of_ge _ (by norm_num)
  · unfold texelD
    simp only [ge_iff_le]
    rw [if_neg (by omega), hs]
    exact encOutD_clamped _ (by norm_num)

/-! ## The smoothstep band -/

theorem shaderMM_eq (m : ℚ) : shaderMM m = 2 * m := by
  unfold shaderMM
  rw [R_cast]
  ring

theorem smoothstep_low (e0 e1 x : ℚ) (h : e0 < e1) (hx : x ≤ e0) : smoothstep e0 e1 x = 0 := by
  unfold smoothstep clamp
  have h1 : (x - e0) / (e1 - e0) ≤ 0 :=
    div_nonpos_of_nonpos_of_nonneg (by linarith) (by linarith)
  simp only
  rw [max_eq_right h1, min_eq_left (by norm_num)]
  ring

theorem smoothstep_high (e0 e1 x : ℚ) (h : e0 < e1) (hx : e1 ≤ x) : smoothstep e0 e1 x = 1 := by
  unfold smoothstep clamp
  have h1 : 1 ≤ (x - e0) / (e1 - e0) := by
    rw [le_div_iff₀ (by linarith)]
    linarith
  simp only
  rw [max_eq_left (by linarith), min_eq_right h1]
  ring

theorem smoothstep_mid (e0 e1 x : ℚ) (h0 : e0 < x) (h1 : x < e1) :
    0 < smoothstep e0 e1 x ∧ smoothstep e0 e1 x < 1 := by
  unfold smoothstep clamp
  have a : 0 < (x - e0) / (e1 - e0) := div_pos (by linarith) (by linarith)
  have b : (x - e0) / (e1 - e0) < 1 := by
    rw [div_lt_one (by linarith)]
    linarith
  simp only
  rw [max_eq_left a.le, min_eq_left b.le]
  generalize (x - e0) / (e1 - e0) = t at a b
  constructor
  · have : 0 < 3 - 2 * t := by linarith
    positivity
  · nlinarith [mul_pos a a, mul_pos (sub_pos.mpr b) (sub_pos.mpr b),
      mul_pos (mul_pos (sub_pos.mpr b) (sub_pos.mpr b)) a]

/-! ## Minimum distances of the sample bitmaps -/

theorem minDist_dot :
    IsMinDist dotBitmap ((8 - FILTERWIDTH) * SAMPLING) ((8 - FILTERWIDTH) * SAMPLING) 1 := by
  have h := isMinDist_of_nearest_some dotBitmap 0 0 1 nearest_dot
  rw [origin_eq]
  simpa using h

theorem minDist_step :
    IsMinDist stepBitmap ((8 - FILTERWIDTH) * SAMPLING) ((8 - FILTERWIDTH) * SAMPLING) 1 := by
  have h := isMinDist_of_nearest_some stepBitmap 0 0 1 nearest_step
  rw [origin_eq]
  simpa using h

theorem minDist_hole :
    IsMinDist holeBitmap ((16 - FILTERWIDTH) * SAMPLING) ((16 - FILTERWIDTH) * SAMPLING)
      (Real.sqrt 4033) := by
  have h := isMinDist_of_nearest_some holeBitmap 64 64 4033 nearest_hole
  rw [center_eq]
  simpa using h

theorem inside_dot :
    128 ≤ S dotBitmap ((8 - FILTERWIDTH) * SAMPLING) ((8 - FILTERWIDTH) * SAMPLING) := by
  rw [origin_eq, S_dot_origin]
  norm_num

theorem outside_step :
    S stepBitmap ((8 - FILTERWIDTH) * SAMPLING) ((8 - FILTERWIDTH) * SAMPLING) < 128 := by
  rw [origin_eq, S_step_origin]
  norm_num

theorem inside_hole :
    128 ≤ S holeBitmap ((16 - FILTERWIDTH) * SAMPLING) ((16 - FILTERWIDTH) * SAMPLING) := by
  rw [center_eq, S_hole 64 64 (by norm_num) (by norm_num) (by norm_num) (by norm_num)]
  norm_num

theorem sqrt_4033_bounds : (127 / 2 : ℝ) < Real.sqrt 4033 ∧ Real.sqrt 4033 < 64 := by
  constructor
  · rw [Real.lt_sqrt (by norm_num)]
    norm_num
  · rw [Real.sqrt_lt' (by norm_num)]
    norm_num

theorem one_le_sqrt_4033 : (1 : ℝ) ≤ Real.sqrt 4033 := by
  have := sqrt_4033_bounds.1
  linarith

theorem blank_data (k : ℕ) : (blankBitmap.data k).val < 128 := by
  unfold blankBitmap
  norm_num

theorem texWidth_four : texWidth 4 = 20 := by
  rw [texWidth_eq 4 (by norm_num) (by norm_num [SAMPLING, INT_MAX])]
  norm_num

theorem texHeight_four : texHeight 4 = 17 := by
  unfold texHeight
  rw [paddedSize_eq 4 (by norm_num) (by norm_num [SAMPLING, INT_MAX])]
  norm_num

/-! ## Accuracy of the square-root model -/

/-- The modelled `sqrt` is within half an ulp, `2^-47`, of the real square root on the
squared distances of the search window. -/
theorem fsqrt_close (n : ℕ) (h1 : 1 ≤ n) (h2 : n < 2 ^ 14) :
    |((fsqrt n : ℚ) : ℝ) - Real.sqrt n| ≤ 1 / 2 ^ 47 := by
  obtain ⟨a1, a2, a3⟩ := fsqrt_bounds n h1 h2
  have b1 : (1 : ℝ) ≤ 2 * ((fsqrt n : ℚ) : ℝ) := by exact_mod_cast a1
  have b2 : (2 * ((fsqrt n : ℚ) : ℝ) - 1 / 2 ^ 46) ^ 2 ≤ 4 * (n : ℝ) := by
    have := (Rat.cast_le (K := ℝ)).mpr a2
    simpa [U] using this
  have b3 : 4 * (n : ℝ) ≤ (2 * ((fsqrt n : ℚ) : ℝ) + 1 / 2 ^ 46) ^ 2 := by
    have := (Rat.cast_le (K := ℝ)).mpr a3
    simpa [U] using this
  have hx0 : 0 ≤ Real.sqrt n := Real.sqrt_nonneg _
  have hx : Real.sqrt n ^ 2 = (n : ℝ) := Real.sq_sqrt (Nat.cast_nonneg n)
  generalize Real.sqrt n = x at hx0 hx ⊢
  generalize ((fsqrt n : ℚ) : ℝ) = r at b1 b2 b3 ⊢
  rw [abs_le]
  constructor
  · by_contra hc
    push_neg at hc
    have h : 2 * r + 1 / 2 ^ 46 < 2 * x := by norm_num at hc ⊢; linarith
    have : (2 * r + 1 / 2 ^ 46) ^ 2 < (2 * x) ^ 2 :=
      pow_lt_pow_left₀ h (by norm_num; linarith) two_ne_zero
    nlinarith
  · by_contra hc
    push_neg at hc
    have h : 2 * x < 2 * r - 1 / 2 ^ 46 := by norm_num at hc ⊢; linarith
    have : (2 * x) ^ 2 < (2 * r - 1 / 2 ^ 46) ^ 2 :=
      pow_lt_pow_left₀ h (by linarith) two_ne_zero
    nlinarith

/-! ## The claims -/

/-- Claim C1: for every bitmap and every texel `(x, y)`, with `(sx, sy) = ((x-8)*8, (y-8)*8)`
and `d` the minimum of `sqrt (i^2 + j^2)` over the offsets of the window whose pixel is on the
other side of the threshold (`1e10` when there is none), the stored byte is
`128 - min (d, 64) * 128 / 64` truncated toward zero for an inside texel and
`127 + min (d, 64) * 128 / 64` truncated toward zero for an outside texel. -/
theorem texel_matches_encoding (bm : Bitmap) (x y : ℤ) (d : ℝ)
    (hd : IsMinDist bm ((x - FILTERWIDTH) * SAMPLING) ((y - FILTERWIDTH) * SAMPLING) d) :
    (128 ≤ S bm ((x - FILTERWIDTH) * SAMPLING) ((y - FILTERWIDTH) * SAMPLING) →
      IsTruncation (texel bm x y : ℤ) (128 - min d 64 * 128 / 64)) ∧
    (S bm ((x - FILTERWIDTH) * SAMPLING) ((y - FILTERWIDTH) * SAMPLING) < 128 →
      IsTruncation (texel bm x y : ℤ) (127 + min d 64 * 128 / 64)) :=
  ⟨fun hin => texel_inside_formula bm x y d hin hd,
   fun hout => texel_outside_formula bm x y d hout hd⟩

/-- Witness for C1: the texel `(8, 8)` of the row whose first pixel is covered, at distance
1 from the outside. -/
theorem texel_matches_encoding_witness :
    IsMinDist dotBitmap ((8 - FILTERWIDTH) * SAMPLING) ((8 - FILTERWIDTH) * SAMPLING) 1 ∧
    ((128 ≤ S dotBitmap ((8 - FILTERWIDTH) * SAMPLING) ((8 - FILTERWIDTH) * SAMPLING) →
      IsTruncation (texel dotBitmap 8 8 : ℤ) (128 - min 1 64 * 128 / 64)) ∧
    (S dotBitmap ((8 - FILTERWIDTH) * SAMPLING) ((8 - FILTERWIDTH) * SAMPLING) < 128 →
      IsTruncation (texel dotBitmap 8 8 : ℤ) (127 + min 1 64 * 128 / 64))) :=
  ⟨minDist_dot, texel_matches_encoding dotBitmap 8 8 1 minDist_dot⟩

/-- Counterexample to C2 as stated: the texel `(0, 0)` of the blank 4 by 4 bitmap lies in
the 20 by 17 texture, is classified outside (coverage 0) and stores 255, which is not below
128. -/
theorem polarity_counterexample :
    0 < texWidth blankBitmap.swidth ∧ 0 < texHeight blankBitmap.sheight ∧
    S blankBitmap ((0 - FILTERWIDTH) * SAMPLING) ((0 - FILTERWIDTH) * SAMPLING) = 0 ∧
    texel blankBitmap 0 0 = 255 ∧
    ¬ (128 ≤ texel blankBitmap 0 0 ↔
      128 ≤ S blankBitmap ((0 - FILTERWIDTH) * SAMPLING) ((0 - FILTERWIDTH) * SAMPLING)) := by
  have ht := (blank_texel blankBitmap blank_data 0 0).1
  have hw : texWidth blankBitmap.swidth = 20 := texWidth_four
  have hh : texHeight blankBitmap.sheight = 17 := texHeight_four
  refine ⟨by rw [hw]; norm_num, by rw [hh]; norm_num, S_blank _ _, ht, ?_⟩
  rw [ht, S_blank]
  norm_num

/-- Claim C2, amended: the polarity is the opposite one.  For every bitmap and every texel
the stored byte is at least 128 exactly when the texel is classified outside; an inside
texel stores at most 126 and an outside texel at least 129. -/
theorem polarity_of_encoding (bm : Bitmap) (x y : ℤ) :
    (128 ≤ texel bm x y ↔
      S bm ((x - FILTERWIDTH) * SAMPLING) ((y - FILTERWIDTH) * SAMPLING) < 128) ∧
    (128 ≤ S bm ((x - FILTERWIDTH) * SAMPLING) ((y - FILTERWIDTH) * SAMPLING) →
      texel bm x y ≤ 126) ∧
    (S bm ((x - FILTERWIDTH) * SAMPLING) ((y - FILTERWIDTH) * SAMPLING) < 128 →
      129 ≤ texel bm x y) := by
  refine ⟨?_, texel_inside_le bm x y, fun h => (texel_outside_ge bm x y h).1⟩
  constructor
  · intro h
    by_contra hc
    have := texel_inside_le bm x y (by omega)
    omega
  · intro h
    have := (texel_outside_ge bm x y h).1
    omega

/-- Counterexample to C3 as stated: in the covered 132 by 129 surface with a hole at offset
`(63, 8)` from the source pixel `(64, 64)`, the texel `(16, 16)` is inside, its distance to
the outside is `sqrt 4033 < 64`, and it stores 0, which is not in `(0, 128]`. -/
theorem inside_range_counterexample :
    128 ≤ S holeBitmap ((16 - FILTERWIDTH) * SAMPLING) ((16 - FILTERWIDTH) * SAMPLING) ∧
    IsMinDist holeBitmap ((16 - FILTERWIDTH) * SAMPLING) ((16 - FILTERWIDTH) * SAMPLING)
      (Real.sqrt 4033) ∧
    Real.sqrt 4033 < 64 ∧ texel holeBitmap 16 16 = 0 :=
  ⟨inside_hole, minDist_hole, sqrt_4033_bounds.2,
    (inside_range holeBitmap 16 16 _ inside_hole minDist_hole).2.2 sqrt_4033_bounds.1⟩

/-- Claim C3, amended: for every inside texel with minimum distance `d` to an outside pixel,
the stored byte lies in `[0, 126]`; it is positive whenever `d ≤ 63.5` and it is 0 whenever
`d > 63.5`, in particular whenever `d ≥ 64` or no outside pixel is found. -/
theorem inside_range_amended (bm : Bitmap) (x y : ℤ) (d : ℝ)
    (hin : 128 ≤ S bm ((x - FILTERWIDTH) * SAMPLING) ((y - FILTERWIDTH) * SAMPLING))
    (hd : IsMinDist bm ((x - FILTERWIDTH) * SAMPLING) ((y - FILTERWIDTH) * SAMPLING) d) :
    texel bm x y ≤ 126 ∧ (d ≤ 127 / 2 → 0 < texel bm x y) ∧
      (127 / 2 < d → texel bm x y = 0) ∧
      ((∀ i j, InWindow i j →
        ¬ Opposite bm ((x - FILTERWIDTH) * SAMPLING) ((y - FILTERWIDTH) * SAMPLING) i j) →
        texel bm x y = 0) := by
  obtain ⟨h1, h2, h3⟩ := inside_range bm x y d hin hd
  refine ⟨h1, h2, h3, ?_⟩
  intro hnone
  have e := minDist_of_nearest_none bm _ _ d hnone hd
  exact h3 (by rw [e]; norm_num)

/-- Witness for C3: the texel `(16, 16)` of the surface with a hole. -/
theorem inside_range_amended_witness :
    128 ≤ S holeBitmap ((16 - FILTERWIDTH) * SAMPLING) ((16 - FILTERWIDTH) * SAMPLING) ∧
    IsMinDist holeBitmap ((16 - FILTERWIDTH) * SAMPLING) ((16 - FILTERWIDTH) * SAMPLING)
      (Real.sqrt 4033) ∧
    (texel holeBitmap 16 16 ≤ 126 ∧ (Real.sqrt 4033 ≤ 127 / 2 → 0 < texel holeBitmap 16 16) ∧
      (127 / 2 < Real.sqrt 4033 → texel holeBitmap 16 16 = 0) ∧
      ((∀ i j, InWindow i j →
        ¬ Opposite holeBitmap ((16 - FILTERWIDTH) * SAMPLING) ((16 - FILTERWIDTH) * SAMPLING)
          i j) →
        texel holeBitmap 16 16 = 0)) :=
  ⟨inside_hole, minDist_hole,
    inside_range_amended holeBitmap 16 16 (Real.sqrt 4033) inside_hole minDist_hole⟩

/-- Claim C4: for every outside texel with minimum distance `d` to an inside pixel, the
stored byte lies in `[128, 255)` whenever `d < 64`, and it is 255 whenever `d ≥ 64` or no
inside pixel is found in the window. -/
theorem outside_range_saturation (bm : Bitmap) (x y : ℤ) (d : ℝ)
    (hout : S bm ((x - FILTERWIDTH) * SAMPLING) ((y - FILTERWIDTH) * SAMPLING) < 128)
    (hd : IsMinDist bm ((x - FILTERWIDTH) * SAMPLING) ((y - FILTERWIDTH) * SAMPLING) d) :
    (d < 64 → 128 ≤ texel bm x y ∧ texel bm x y < 255) ∧
    (64 ≤ d → texel bm x y = 255) ∧
    ((∀ i j, InWindow i j →
      ¬ Opposite bm ((x - FILTERWIDTH) * SAMPLING) ((y - FILTERWIDTH) * SAMPLING) i j) →
      texel bm x y = 255) := by
  obtain ⟨h1, h2⟩ := outside_range bm x y d hout hd
  refine ⟨h1, h2, ?_⟩
  intro hnone
  have e := minDist_of_nearest_none bm _ _ d hnone hd
  exact h2 (by rw [e]; norm_num)

/-- Witness for C4: the texel `(8, 8)` of the row whose second pixel is covered, at distance
1 from the inside. -/
theorem outside_range_saturation_witness :
    S stepBitmap ((8 - FILTERWIDTH) * SAMPLING) ((8 - FILTERWIDTH) * SAMPLING) < 128 ∧
    IsMinDist stepBitmap ((8 - FILTERWIDTH) * SAMPLING) ((8 - FILTERWIDTH) * SAMPLING) 1 ∧
    (((1 : ℝ) < 64 → 128 ≤ texel stepBitmap 8 8 ∧ texel stepBitmap 8 8 < 255) ∧
    ((64 : ℝ) ≤ 1 → texel stepBitmap 8 8 = 255) ∧
    ((∀ i j, InWindow i j →
      ¬ Opposite stepBitmap ((8 - FILTERWIDTH) * SAMPLING) ((8 - FILTERWIDTH) * SAMPLING) i j) →
      texel stepBitmap 8 8 = 255)) :=
  ⟨outside_step, minDist_step, outside_range_saturation stepBitmap 8 8 1 outside_step minDist_step⟩

/-- Claim C5: for two texels of the same classification, in the same or in different
bitmaps, with minimum distances `d1 ≤ d2`, the stored bytes satisfy `v1 ≥ v2` when both are
inside and `v1 ≤ v2` when both are outside; texels of the same classification with the
same clamped distance `min (d, 64)` store the same byte. -/
theorem encoding_monotone (bm1 : Bitmap) (x1 y1 : ℤ) (bm2 : Bitmap) (x2 y2 : ℤ) (d1 d2 : ℝ)
    (hd1 : IsMinDist bm1 ((x1 - FILTERWIDTH) * SAMPLING) ((y1 - FILTERWIDTH) * SAMPLING) d1)
    (hd2 : IsMinDist bm2 ((x2 - FILTERWIDTH) * SAMPLING) ((y2 - FILTERWIDTH) * SAMPLING) d2) :
    (128 ≤ S bm1 ((x1 - FILTERWIDTH) * SAMPLING) ((y1 - FILTERWIDTH) * SAMPLING) →
      128 ≤ S bm2 ((x2 - FILTERWIDTH) * SAMPLING) ((y2 - FILTERWIDTH) * SAMPLING) →
      (d1 ≤ d2 → texel bm2 x2 y2 ≤ texel bm1 x1 y1) ∧
      (min d1 64 = min d2 64 → texel bm1 x1 y1 = texel bm2 x2 y2)) ∧
    (S bm1 ((x1 - FILTERWIDTH) * SAMPLING) ((y1 - FILTERWIDTH) * SAMPLING) < 128 →
      S bm2 ((x2 - FILTERWIDTH) * SAMPLING) ((y2 - FILTERWIDTH) * SAMPLING) < 128 →
      (d1 ≤ d2 → texel bm1 x1 y1 ≤ texel bm2 x2 y2) ∧
      (min d1 64 = min d2 64 → texel bm1 x1 y1 = texel bm2 x2 y2)) := by
  constructor
  · intro h1 h2
    constructor
    · intro h
      exact (code_mono bm1 x1 y1 bm2 x2 y2 d1 d2 hd1 hd2 (min_le_min h (le_refl _))).1 h1 h2
    · intro h
      exact Nat.le_antisymm
        ((code_mono bm2 x2 y2 bm1 x1 y1 d2 d1 hd2 hd1 h.ge).1 h2 h1)
        ((code_mono bm1 x1 y1 bm2 x2 y2 d1 d2 hd1 hd2 h.le).1 h1 h2)
  · intro h1 h2
    constructor
    · intro h
      exact (code_mono bm1 x1 y1 bm2 x2 y2 d1 d2 hd1 hd2 (min_le_min h (le_refl _))).2 h1 h2
    · intro h
      exact Nat.le_antisymm
        ((code_mono bm1 x1 y1 bm2 x2 y2 d1 d2 hd1 hd2 h.le).2 h1 h2)
        ((code_mono bm2 x2 y2 bm1 x1 y1 d2 d1 hd2 hd1 h.ge).2 h2 h1)

/-- Witness for C5: the row with one covered pixel (distance 1) against the surface with a
hole (distance `sqrt 4033`), both texels inside. -/
theorem encoding_monotone_witness :
    IsMinDist dotBitmap ((8 - FILTERWIDTH) * SAMPLING) ((8 - FILTERWIDTH) * SAMPLING) 1 ∧
    IsMinDist holeBitmap ((16 - FILTERWIDTH) * SAMPLING) ((16 - FILTERWIDTH) * SAMPLING)
      (Real.sqrt 4033) ∧
    128 ≤ S dotBitmap ((8 - FILTERWIDTH) * SAMPLING) ((8 - FILTERWIDTH) * SAMPLING) ∧
    128 ≤ S holeBitmap ((16 - FILTERWIDTH) * SAMPLING) ((16 - FILTERWIDTH) * SAMPLING) ∧
    (1 : ℝ) ≤ Real.sqrt 4033 ∧
    texel holeBitmap 16 16 ≤ texel dotBitmap 8 8 :=
  ⟨minDist_dot, minDist_hole, inside_dot, inside_hole, one_le_sqrt_4033,
    ((encoding_monotone dotBitmap 8 8 holeBitmap 16 16 1 (Real.sqrt 4033) minDist_dot
      minDist_hole).1 inside_dot inside_hole).1 one_le_sqrt_4033⟩

/-- Claim C6: for every texel whose mapped source pixel has a horizontally or vertically
adjacent source pixel of the opposite classification, the stored byte `v` satisfies
`|v - 128| ≤ 2`: it is 126 for an inside texel and 129 for an outside texel. -/
theorem zero_crossing (bm : Bitmap) (x y i j : ℤ)
    (hadj : (i = 1 ∧ j = 0) ∨ (i = -1 ∧ j = 0) ∨ (i = 0 ∧ j = 1) ∨ (i = 0 ∧ j = -1))
    (hopp : Opposite bm ((x - FILTERWIDTH) * SAMPLING) ((y - FILTERWIDTH) * SAMPLING) i j) :
    |(texel bm x y : ℤ) - 128| ≤ 2 ∧
    (128 ≤ S bm ((x - FILTERWIDTH) * SAMPLING) ((y - FILTERWIDTH) * SAMPLING) →
      texel bm x y = 126) ∧
    (S bm ((x - FILTERWIDTH) * SAMPLING) ((y - FILTERWIDTH) * SAMPLING) < 128 →
      texel bm x y = 129) := by
  obtain ⟨h1, h2⟩ := texel_adjacent bm x y i j hadj hopp
  refine ⟨?_, h1, h2⟩
  by_cases hin : 128 ≤ S bm ((x - FILTERWIDTH) * SAMPLING) ((y - FILTERWIDTH) * SAMPLING)
  · rw [h1 hin]; norm_num
  · rw [h2 (by omega)]; norm_num

/-- Witness for C6: the covered pixel `(0, 0)` has an uncovered right neighbour. -/
theorem zero_crossing_witness :
    Opposite dotBitmap ((8 - FILTERWIDTH) * SAMPLING) ((8 - FILTERWIDTH) * SAMPLING) 1 0 ∧
    (|(texel dotBitmap 8 8 : ℤ) - 128| ≤ 2 ∧
    (128 ≤ S dotBitmap ((8 - FILTERWIDTH) * SAMPLING) ((8 - FILTERWIDTH) * SAMPLING) →
      texel dotBitmap 8 8 = 126) ∧
    (S dotBitmap ((8 - FILTERWIDTH) * SAMPLING) ((8 - FILTERWIDTH) * SAMPLING) < 128 →
      texel dotBitmap 8 8 = 129)) := by
  have ho : Opposite dotBitmap ((8 - FILTERWIDTH) * SAMPLING) ((8 - FILTERWIDTH) * SAMPLING)
      1 0 := by
    rw [origin_eq]
    unfold Opposite
    rw [S_dot_origin]
    simp only [zero_add, add_zero]
    rw [S_dot_right]
    norm_num
  exact ⟨ho, zero_crossing dotBitmap 8 8 1 0 (Or.inl ⟨rfl, rfl⟩) ho⟩

/-- Claim C7: for source sizes `swidth ≥ 0` and `sheight ≥ 0` within the `int` range, that is
with `swidth + SAMPLING-1` and `sheight + SAMPLING-1` not above `INT_MAX`, the computed width
is the least multiple of 4 that is at least `ceil (swidth / 8) + 16` and the computed height
is `ceil (sheight / 8) + 16`; so the width is a multiple of 4 and both are at least
`2 * FILTERWIDTH = 16`, also for `swidth = 0` or `sheight = 0`. -/
theorem output_dimensions (swidth sheight : ℤ)
    (hw0 : 0 ≤ swidth) (hw1 : swidth + (SAMPLING - 1) ≤ INT_MAX)
    (hh0 : 0 ≤ sheight) (hh1 : sheight + (SAMPLING - 1) ≤ INT_MAX) :
    IsLeast {w : ℤ | 4 ∣ w ∧ ⌈(swidth : ℚ) / 8⌉ + 16 ≤ w} (texWidth swidth) ∧
    texHeight sheight = ⌈(sheight : ℚ) / 8⌉ + 16 ∧
    4 ∣ texWidth swidth ∧ 2 * FILTERWIDTH ≤ texWidth swidth ∧
    2 * FILTERWIDTH ≤ texHeight sheight ∧ 16 ≤ texWidth swidth ∧ 16 ≤ texHeight sheight := by
  have ew := texWidth_eq swidth hw0 hw1
  have eh : texHeight sheight = (sheight + 7) / 8 + 16 := paddedSize_eq sheight hh0 hh1
  rw [ceil_div_eight, ceil_div_eight, ew, eh]
  simp only [FILTERWIDTH]
  refine ⟨⟨⟨by omega, by omega⟩, ?_⟩, trivial, by omega, by omega, by omega, by omega, by omega⟩
  rintro w ⟨h4, hle⟩
  omega

/-- Witness for C7: a source of size 0 by 0. -/
theorem output_dimensions_witness :
    (0 : ℤ) ≤ 0 ∧ (0 : ℤ) + (SAMPLING - 1) ≤ INT_MAX ∧
    (IsLeast {w : ℤ | 4 ∣ w ∧ ⌈((0 : ℤ) : ℚ) / 8⌉ + 16 ≤ w} (texWidth 0) ∧
    texHeight 0 = ⌈((0 : ℤ) : ℚ) / 8⌉ + 16 ∧
    4 ∣ texWidth 0 ∧ 2 * FILTERWIDTH ≤ texWidth 0 ∧
    2 * FILTERWIDTH ≤ texHeight 0 ∧ 16 ≤ texWidth 0 ∧ 16 ≤ texHeight 0) :=
  ⟨le_refl _, by norm_num [SAMPLING, INT_MAX],
    output_dimensions 0 0 (le_refl _) (by norm_num [SAMPLING, INT_MAX]) (le_refl _)
      (by norm_num [SAMPLING, INT_MAX])⟩

/-- Counterexample to C8 as stated: the blank 4 by 4 bitmap has every pixel below the
threshold, and its texel `(8, 8)` stores 255, not 0. -/
theorem blank_glyph_counterexample :
    (∀ k, (blankBitmap.data k).val < 128) ∧ texel blankBitmap 8 8 = 255 ∧
    ¬ (texel blankBitmap 8 8 = 0) := by
  have ht := (blank_texel blankBitmap blank_data 8 8).1
  refine ⟨blank_data, ht, ?_⟩
  rw [ht]
  norm_num

/-- Claim C8, amended: for every bitmap in which every pixel is below the threshold 128,
every texel of the distance field stores 255; the search leaves the sentinel `1e10` in `c`,
`MIN` clamps it to `R = 64`, and the encoded `double` is 255, inside `[0, 255]`. -/
theorem blank_glyph_saturates (bm : Bitmap) (hblank : ∀ k, (bm.data k).val < 128) (x y : ℤ) :
    texel bm x y = 255 ∧
    scan (fun v => decide (v ≥ 128)) bm ((x - FILTERWIDTH) * SAMPLING)
      ((y - FILTERWIDTH) * SAMPLING) = 10000000000 ∧
    MIN (scan (fun v => decide (v ≥ 128)) bm ((x - FILTERWIDTH) * SAMPLING)
      ((y - FILTERWIDTH) * SAMPLING)) 64 = 64 ∧
    texelD bm x y = 255 ∧ 0 ≤ texelD bm x y ∧ texelD bm x y ≤ 255 := by
  obtain ⟨h1, h2, h3, h4⟩ := blank_texel bm hblank x y
  exact ⟨h1, h2, h3, h4, by rw [h4]; norm_num, h4.le⟩

/-- Witness for C8: the blank 4 by 4 bitmap. -/
theorem blank_glyph_saturates_witness :
    (∀ k, (blankBitmap.data k).val < 128) ∧
    (texel blankBitmap 3 5 = 255 ∧
    scan (fun v => decide (v ≥ 128)) blankBitmap ((3 - FILTERWIDTH) * SAMPLING)
      ((5 - FILTERWIDTH) * SAMPLING) = 10000000000 ∧
    MIN (scan (fun v => decide (v ≥ 128)) blankBitmap ((3 - FILTERWIDTH) * SAMPLING)
      ((5 - FILTERWIDTH) * SAMPLING)) 64 = 64 ∧
    texelD blankBitmap 3 5 = 255 ∧ 0 ≤ texelD blankBitmap 3 5 ∧ texelD blankBitmap 3 5 ≤ 255) :=
  ⟨blank_data, blank_glyph_saturates blankBitmap blank_data 3 5⟩

/-- Claim C9: for every derivative magnitude `m > 0` the shader computes
`mm = m * 128 / (FILTERWIDTH*SAMPLING) = 2 * m` and `alpha = smoothstep (-mm, mm, r - 0.5)`:
`alpha` is 0 for `r - 0.5 ≤ -mm`, 1 for `r - 0.5 ≥ mm` and strictly between in the band,
whose width is `2 * mm = 4 * m`; halving `m` halves the width of the band. -/
theorem transition_band (m : ℚ) (hm : 0 < m) :
    shaderMM m = 2 * m ∧
    (∀ r, r - 1 / 2 ≤ -shaderMM m → shaderAlpha m r = 0) ∧
    (∀ r, shaderMM m ≤ r - 1 / 2 → shaderAlpha m r = 1) ∧
    (∀ r, -shaderMM m < r - 1 / 2 → r - 1 / 2 < shaderMM m →
      0 < shaderAlpha m r ∧ shaderAlpha m r < 1) ∧
    bandWidth m = 2 * shaderMM m ∧ bandWidth m = 4 * m ∧
    bandWidth (m / 2) = bandWidth m / 2 := by
  have e := shaderMM_eq m
  have hlt : -shaderMM m < shaderMM m := by rw [e]; linarith
  refine ⟨e, ?_, ?_, ?_, ?_, ?_, ?_⟩
  · intro r hr
    exact smoothstep_low _ _ _ hlt hr
  · intro r hr
    exact smoothstep_high _ _ _ hlt hr
  · intro r h0 h1
    exact smoothstep_mid _ _ _ h0 h1
  · unfold bandWidth; ring
  · unfold bandWidth; rw [e]; ring
  · unfold bandWidth; rw [shaderMM_eq, shaderMM_eq]; ring

/-- Witness for C9: derivative magnitude 1. -/
theorem transition_band_witness :
    (0 : ℚ) < 1 ∧
    (shaderMM 1 = 2 * 1 ∧
    (∀ r, r - 1 / 2 ≤ -shaderMM 1 → shaderAlpha 1 r = 0) ∧
    (∀ r, shaderMM 1 ≤ r - 1 / 2 → shaderAlpha 1 r = 1) ∧
    (∀ r, -shaderMM 1 < r - 1 / 2 → r - 1 / 2 < shaderMM 1 →
      0 < shaderAlpha 1 r ∧ shaderAlpha 1 r < 1) ∧
    bandWidth 1 = 2 * shaderMM 1 ∧ bandWidth 1 = 4 * 1 ∧
    bandWidth (1 / 2) = bandWidth 1 / 2) :=
  ⟨one_pos, transition_band 1 one_pos⟩

/-- Claim C10: the square window is equivalent to the disc of radius `R = 64`.  For every
bitmap and texel the byte obtained when only the offsets with `i^2 + j^2 < 64^2` are
examined equals the stored byte; and a texel whose opposite-class pixels all lie at distance
`R` or more (the corners of the square) stores the same byte as a texel of the same
classification with no opposite-class pixel in its window. -/
theorem square_window_equiv_disc (bm : Bitmap) (x y : ℤ) :
    texelDisc bm x y = texel bm x y ∧
    ∀ (bm' : Bitmap) (x' y' : ℤ),
      (128 ≤ S bm ((x - FILTERWIDTH) * SAMPLING) ((y - FILTERWIDTH) * SAMPLING) ↔
        128 ≤ S bm' ((x' - FILTERWIDTH) * SAMPLING) ((y' - FILTERWIDTH) * SAMPLING)) →
      (∀ i j, InWindow i j →
        Opposite bm ((x - FILTERWIDTH) * SAMPLING) ((y - FILTERWIDTH) * SAMPLING) i j →
        64 * 64 ≤ i * i + j * j) →
      (∀ i j, InWindow i j →
        ¬ Opposite bm' ((x' - FILTERWIDTH) * SAMPLING) ((y' - FILTERWIDTH) * SAMPLING) i j) →
      texel bm x y = texel bm' x' y' := by
  refine ⟨texelDisc_eq bm x y, ?_⟩
  intro bm' x' y' hclass hfar hnone
  have h1 := texel_of_far bm x y (by
    intro i j hw ho
    have := hfar i j hw ho
    unfold sqDist
    omega)
  have h2 := texel_of_far bm' x' y' (by
    intro i j hw ho
    exact absurd ho (hnone i j hw))
  rw [h1, h2]
  by_cases h : 128 ≤ S bm ((x - FILTERWIDTH) * SAMPLING) ((y - FILTERWIDTH) * SAMPLING)
  · rw [if_pos h, if_pos (hclass.mp h)]
  · rw [if_neg h, if_neg (fun h' => h (hclass.mpr h'))]

/-- Witness for C10: the surface whose only hole is in the corner of the window, at offset
`(64, 64)`, against the fully covered surface. -/
theorem square_window_equiv_disc_witness :
    texelDisc cornerBitmap 16 16 = texel cornerBitmap 16 16 ∧
    texel cornerBitmap 16 16 = texel solidBitmap 16 16 := by
  have hc : S cornerBitmap 64 64 = 255 := by
    rw [S_corner 64 64 (by norm_num) (by norm_num) (by norm_num) (by norm_num)]
    norm_num
  have hs : S solidBitmap 64 64 = 255 :=
    S_solid 64 64 (by norm_num) (by norm_num) (by norm_num) (by norm_num)
  refine ⟨(square_window_equiv_disc cornerBitmap 16 16).1,
    (square_window_equiv_disc cornerBitmap 16 16).2 solidBitmap 16 16 ?_ ?_ ?_⟩
  · rw [center_eq, hc, hs]
  · rw [center_eq]
    intro i j hw ho
    have := nearest_corner.2 i j hw ho
    unfold sqDist at this
    omega
  · rw [center_eq]
    exact nearest_solid

end Glyphy
